import Mathlib

/-!
Verification of the van Emde Boas tree in src/python/src/trees/veb.py.

The tree is embedded shallowly.  Valid universe sizes are exactly the
numbers 2 ^ 2 ^ k, whose repeated integer square root chain bottoms out at
2; a tree of recursion level k has universe size 2 ^ 2 ^ k, its summary and
clusters have level k - 1.  The cluster list always has exactly
int(math.sqrt(size)) entries (built eagerly in __init__ and never resized),
so it is embedded as a function from Fin (usize k); indexing it with a raw
integer goes through cidx, which returns none exactly when Python raises
IndexError.  Mutating methods return Option: none models a Python exception
escaping the call (IndexError, TypeError on comparing an int with None, or
the UnboundLocalError in vEB.delete); some t is a normal return with t the
updated object.  The queries successor and predecessor return
Option (Option Nat): the outer layer models an escaping exception, the
inner layer is the Optional[int] the method returns.
-/

/-- Universe size of a van Emde Boas tree of recursion level k.  The valid
sizes accepted by the algorithm are exactly usize k = 2 ^ 2 ^ k. -/
def usize (k : Nat) : Nat := 2 ^ 2 ^ k

theorem usize_succ (k : Nat) : usize (k + 1) = usize k * usize k := by
  simp only [usize, ← pow_add]
  congr 1
  rw [pow_succ]
  omega

theorem usize_pos (k : Nat) : 0 < usize k := Nat.pos_pow_of_pos _ (by omega)

theorem usize_ge_two (k : Nat) : 2 ≤ usize k := by
  have h : 0 < 2 ^ k := Nat.pos_pow_of_pos _ (by omega)
  calc 2 = 2 ^ 1 := by omega
  _ ≤ 2 ^ 2 ^ k := Nat.pow_le_pow_right (by omega) (by omega)

/-- The vEB class of veb.py, indexed by recursion level.  A level 0 tree is
the size 2 base case (summary and cluster are None in the source, so they
are omitted); a level k + 1 tree has size usize (k + 1) and owns a summary
tree and usize k cluster trees, each of level k.  mn and mx are the
self.min and self.max fields. -/
inductive vEB : Nat → Type where
  | leaf (mn mx : Option Nat) : vEB 0
  | node (mn mx : Option Nat) (summary : vEB k) (cluster : Fin (usize k) → vEB k) :
      vEB (k + 1)

/-- The self.min field. -/
def vEB.min : {k : Nat} → vEB k → Option Nat
  | _, .leaf mn _ => mn
  | _, .node mn _ _ _ => mn

/-- The self.max field. -/
def vEB.max : {k : Nat} → vEB k → Option Nat
  | _, .leaf _ mx => mx
  | _, .node _ mx _ _ => mx

/-- Python list indexing self.cluster[i]: none models IndexError. -/
def cidx {k : Nat} (c : Fin (usize k) → vEB k) (i : Nat) : Option (vEB k) :=
  if h : i < usize k then some (c ⟨i, h⟩) else none

/-- Replacing entry i of self.cluster (the effect of mutating it). -/
def cset {k : Nat} (c : Fin (usize k) → vEB k) (i : Nat) (t : vEB k) :
    Fin (usize k) → vEB k :=
  fun j => if j.val = i then t else c j

/-- vEB.high from the source, for a tree whose self.size field holds size:
element // int(math.sqrt(self.size)).  Nat.sqrt models int(math.sqrt _). -/
def vEB.highS (size element : Nat) : Nat := element / Nat.sqrt size

/-- vEB.low from the source: element % int(math.sqrt(self.size)). -/
def vEB.lowS (size element : Nat) : Nat := element % Nat.sqrt size

/-- vEB.get from the source: x * int(math.sqrt(self.size)) + y. -/
def vEB.getS (size x y : Nat) : Nat := x * Nat.sqrt size + y

/-- vEB.high at a tree of level k + 1, whose size is usize (k + 1), so that
int(math.sqrt(size)) = usize k (theorem sqrt_usize below). -/
def vhigh (k element : Nat) : Nat := element / usize k

/-- vEB.low at a tree of level k + 1. -/
def vlow (k element : Nat) : Nat := element % usize k

/-- vEB.get at a tree of level k + 1. -/
def vget (k x y : Nat) : Nat := x * usize k + y

/-- For a valid size, int(math.sqrt(usize (k + 1))) is exactly usize k, so
the level indexed vhigh, vlow, vget agree with the source arithmetic. -/
theorem sqrt_usize (k : Nat) : Nat.sqrt (usize (k + 1)) = usize k := by
  rw [usize_succ, Nat.sqrt_eq]

theorem highS_eq_vhigh (k e : Nat) : vEB.highS (usize (k + 1)) e = vhigh k e := by
  simp [vEB.highS, vhigh, sqrt_usize]

theorem lowS_eq_vlow (k e : Nat) : vEB.lowS (usize (k + 1)) e = vlow k e := by
  simp [vEB.lowS, vlow, sqrt_usize]

theorem getS_eq_vget (k x y : Nat) : vEB.getS (usize (k + 1)) x y = vget k x y := by
  simp [vEB.getS, vget, sqrt_usize]

/-- Lines 92 and 93 of vEB.insert: directly assign self.min and self.max of
a cluster, leaving its summary and clusters untouched. -/
def vEB.setMinMax : {k : Nat} → vEB k → Nat → vEB k
  | _, .leaf _ _, v => .leaf (some v) (some v)
  | _, .node _ _ s c, v => .node (some v) (some v) s c

/-- vEB.insert.  none models a Python exception: comparing element with an
absent self.max raises TypeError, and self.cluster[h] with h out of range
raises IndexError.  Neither happens on in-range keys of well formed trees. -/
def vEB.insert : (k : Nat) → vEB k → Nat → Option (vEB k)
  | 0, .leaf mn mx, e =>
    match mn with
    | none => some (.leaf (some e) (some e))
    | some m =>
      match mx with
      | none => none
      | some M =>
        let e1 := if e < m then m else e
        let m1 := if e < m then e else m
        some (.leaf (some m1) (some (if M < e1 then e1 else M)))
  | k + 1, .node mn mx s c, e =>
    match mn with
    | none => some (.node (some e) (some e) s c)
    | some m =>
      match mx with
      | none => none
      | some M =>
        let e1 := if e < m then m else e
        let m1 := if e < m then e else m
        let M1 := if M < e1 then e1 else M
        match cidx c (vhigh k e1) with
        | none => none
        | some ci =>
          match ci.min with
          | none =>
            match vEB.insert k s (vhigh k e1) with
            | none => none
            | some s1 =>
              some (.node (some m1) (some M1) s1
                (cset c (vhigh k e1) (ci.setMinMax (vlow k e1))))
          | some _ =>
            match vEB.insert k ci (vlow k e1) with
            | none => none
            | some ci1 => some (.node (some m1) (some M1) s (cset c (vhigh k e1) ci1))

/-- vEB.delete.  The source assigns the local x only inside the
element == self.min branch yet uses it unconditionally on line 121, so when
element differs from self.min (with min different from max, at size above 2)
the call raises UnboundLocalError, modeled by none. -/
def vEB.delete : (k : Nat) → vEB k → Nat → Option (vEB k)
  | 0, .leaf mn mx, e =>
    if mn = mx then some (.leaf none none)
    else
      let m1 : Nat := if e = 0 then 1 else 0
      some (.leaf (some m1) (some m1))
  | k + 1, .node mn mx s c, e =>
    if mn = mx then some (.node none none s c)
    else if some e = mn then
      match s.min with
      | none => none
      | some fc =>
        match cidx c fc with
        | none => none
        | some cfc =>
          match cfc.min with
          | none => none
          | some cfm =>
            let x := vget k fc cfm
            match cidx c (vhigh k x) with
            | none => none
            | some cx =>
              match vEB.delete k cx (vlow k x) with
              | none => none
              | some cx1 =>
                let c1 := cset c (vhigh k x) cx1
                if cx1.min = none then
                  match vEB.delete k s (vhigh k x) with
                  | none => none
                  | some s1 =>
                    if some e = mx then
                      match s1.max with
                      | none => some (.node (some x) (some x) s1 c1)
                      | some sM =>
                        match cidx c1 sM with
                        | none => none
                        | some csM =>
                          match csM.max with
                          | none => none
                          | some v => some (.node (some x) (some (vget k sM v)) s1 c1)
                    else some (.node (some x) mx s1 c1)
                else
                  if some e = mx then
                    match cx1.max with
                    | none => none
                    | some v =>
                      some (.node (some x) (some (vget k (vhigh k x) v)) s c1)
                  else some (.node (some x) mx s c1)
    else none

/-- vEB.successor.  Outer none models an escaping exception (IndexError on
an out of range cluster index, or TypeError in self.get when a recursive
call returns None); the inner Option is the Optional[int] result. -/
def vEB.successor : (k : Nat) → vEB k → Nat → Option (Option Nat)
  | 0, .leaf _ mx, e =>
    if e = 0 ∧ mx = some 1 then some (some 1) else some none
  | k + 1, .node mn _ s c, e =>
    if mn.any (fun m => decide (e < m)) then some mn
    else
      match cidx c (vhigh k e) with
      | none => none
      | some ci =>
        if (ci.max).any (fun ml => decide (vlow k e < ml)) then
          match vEB.successor k ci (vlow k e) with
          | none => none
          | some none => none
          | some (some off) => some (some (vget k (vhigh k e) off))
        else
          match vEB.successor k s (vhigh k e) with
          | none => none
          | some none => some none
          | some (some sc) =>
            match cidx c sc with
            | none => none
            | some csc =>
              match csc.min with
              | none => none
              | some off => some (some (vget k sc off))

/-- vEB.predecessor, the mirror of successor with the extra fallback to the
cached self.min when the summary holds no earlier cluster. -/
def vEB.predecessor : (k : Nat) → vEB k → Nat → Option (Option Nat)
  | 0, .leaf mn _, e =>
    if e = 1 ∧ mn = some 0 then some (some 0) else some none
  | k + 1, .node mn mx s c, e =>
    if mx.any (fun M => decide (M < e)) then some mx
    else
      match cidx c (vhigh k e) with
      | none => none
      | some ci =>
        if (ci.min).any (fun ml => decide (ml < vlow k e)) then
          match vEB.predecessor k ci (vlow k e) with
          | none => none
          | some none => none
          | some (some off) => some (some (vget k (vhigh k e) off))
        else
          match vEB.predecessor k s (vhigh k e) with
          | none => none
          | some none =>
            if mn.any (fun m => decide (m < e)) then some mn else some none
          | some (some pc) =>
            match cidx c pc with
            | none => none
            | some cpc =>
              match cpc.max with
              | none => none
              | some off => some (some (vget k pc off))

/-- vEB.isin.  none models the IndexError a sufficiently out of range key
raises at a non base level. -/
def vEB.isin : (k : Nat) → vEB k → Nat → Option Bool
  | 0, .leaf mn mx, e => some (decide (some e = mn ∨ some e = mx))
  | k + 1, .node mn mx _ c, e =>
    if some e = mn ∨ some e = mx then some true
    else
      match cidx c (vhigh k e) with
      | none => none
      | some ci => vEB.isin k ci (vlow k e)

/-- vEB.__init__ at a valid universe size usize k: min and max start absent
and the full recursive skeleton of int(math.sqrt(size)) clusters plus one
summary is built eagerly. -/
def vEB.init : (k : Nat) → vEB k
  | 0 => .leaf none none
  | k + 1 => .node none none (vEB.init k) (fun _ => vEB.init k)

/-- Folding vEB.insert over a list of keys, stopping at an exception. -/
def insertSeq (k : Nat) (t : vEB k) (l : List Nat) : Option (vEB k) :=
  l.foldlM (vEB.insert k) t

/-- Folding vEB.delete over a list of keys, stopping at an exception. -/
def deleteSeq (k : Nat) (t : vEB k) (l : List Nat) : Option (vEB k) :=
  l.foldlM (vEB.delete k) t

/-! Arithmetic of the high/low decomposition at a valid size. -/

theorem vlow_lt (k e : Nat) : vlow k e < usize k := Nat.mod_lt _ (usize_pos k)

theorem vhigh_lt {k e : Nat} (h : e < usize (k + 1)) : vhigh k e < usize k := by
  have hu := usize_pos k
  rw [vhigh, Nat.div_lt_iff_lt_mul hu]
  rw [usize_succ] at h
  exact h

theorem vget_lt {k i y : Nat} (hi : i < usize k) (hy : y < usize k) :
    vget k i y < usize (k + 1) := by
  have h1 : vget k i y < (i + 1) * usize k := by
    simp only [vget, add_mul, one_mul]
    omega
  have h2 : (i + 1) * usize k ≤ usize k * usize k :=
    Nat.mul_le_mul_right _ hi
  rw [usize_succ]
  omega

theorem vget_high {k i y : Nat} (hy : y < usize k) : vhigh k (vget k i y) = i := by
  rw [vget, vhigh, mul_comm, Nat.mul_add_div (usize_pos k), Nat.div_eq_of_lt hy]
  omega

theorem vget_low {k i y : Nat} (hy : y < usize k) : vlow k (vget k i y) = y := by
  rw [vget, vlow, mul_comm, Nat.mul_add_mod, Nat.mod_eq_of_lt hy]

theorem vget_high_low (k e : Nat) : vget k (vhigh k e) (vlow k e) = e := by
  rw [vget, vhigh, vlow]
  exact Nat.div_add_mod' e (usize k)

theorem vget_lt_of_high_lt {k i i' y : Nat} (y' : Nat) (h : i < i') (hy : y < usize k) :
    vget k i y < vget k i' y' := by
  have h1 : vget k i y < (i + 1) * usize k := by
    simp only [vget, add_mul, one_mul]; omega
  have h2 : (i + 1) * usize k ≤ i' * usize k := Nat.mul_le_mul_right _ h
  have h3 : i' * usize k ≤ vget k i' y' := by simp [vget]
  omega

theorem vget_lt_vget_iff {k i i' y y' : Nat} (hy : y < usize k) (hy' : y' < usize k) :
    vget k i y < vget k i' y' ↔ i < i' ∨ (i = i' ∧ y < y') := by
  constructor
  · intro h
    rcases Nat.lt_trichotomy i i' with hi | hi | hi
    · exact Or.inl hi
    · subst hi
      refine Or.inr ⟨rfl, ?_⟩
      simpa [vget] using h
    · exact absurd (vget_lt_of_high_lt y hi hy') (by omega)
  · rintro (hi | ⟨rfl, hyy⟩)
    · exact vget_lt_of_high_lt y' hi hy
    · simpa [vget] using hyy

theorem vget_inj {k i i' y y' : Nat} (hy : y < usize k) (hy' : y' < usize k) :
    vget k i y = vget k i' y' ↔ i = i' ∧ y = y' := by
  constructor
  · intro h
    have h1 : i = i' := by
      have := vget_high (i := i) hy
      have := vget_high (i := i') hy'
      rw [h] at *
      omega
    subst h1
    refine ⟨rfl, ?_⟩
    simpa [vget] using h
  · rintro ⟨rfl, rfl⟩; rfl

/-! Optional minimum and maximum of a finite set of keys, the value the
spec says min(), max(), successor and predecessor must produce. -/

/-- The least element of s, or none when s is empty. -/
def oMin (s : Finset Nat) : Option Nat :=
  if h : s.Nonempty then some (s.min' h) else none

/-- The greatest element of s, or none when s is empty. -/
def oMax (s : Finset Nat) : Option Nat :=
  if h : s.Nonempty then some (s.max' h) else none

theorem oMin_empty : oMin ∅ = none := by simp [oMin]

theorem oMax_empty : oMax ∅ = none := by simp [oMax]

theorem oMin_eq_none_iff {s : Finset Nat} : oMin s = none ↔ s = ∅ := by
  unfold oMin
  split
  · rename_i h
    simp [Finset.nonempty_iff_ne_empty.mp h]
  · rename_i h
    simp [Finset.not_nonempty_iff_eq_empty.mp h]

theorem oMax_eq_none_iff {s : Finset Nat} : oMax s = none ↔ s = ∅ := by
  unfold oMax
  split
  · rename_i h
    simp [Finset.nonempty_iff_ne_empty.mp h]
  · rename_i h
    simp [Finset.not_nonempty_iff_eq_empty.mp h]

theorem oMin_eq_some_iff {s : Finset Nat} {a : Nat} :
    oMin s = some a ↔ a ∈ s ∧ ∀ x ∈ s, a ≤ x := by
  unfold oMin
  split
  · rename_i h
    simp only [Option.some.injEq]
    constructor
    · rintro rfl
      exact ⟨s.min'_mem h, fun x hx => s.min'_le x hx⟩
    · rintro ⟨ha, hle⟩
      exact le_antisymm (s.min'_le a ha) (s.le_min' h a hle)
  · rename_i h
    rw [Finset.not_nonempty_iff_eq_empty] at h
    simp [h]

theorem oMax_eq_some_iff {s : Finset Nat} {a : Nat} :
    oMax s = some a ↔ a ∈ s ∧ ∀ x ∈ s, x ≤ a := by
  unfold oMax
  split
  · rename_i h
    simp only [Option.some.injEq]
    constructor
    · rintro rfl
      exact ⟨s.max'_mem h, fun x hx => s.le_max' x hx⟩
    · rintro ⟨ha, hle⟩
      exact le_antisymm (s.max'_le h a hle) (s.le_max' a ha)
  · rename_i h
    rw [Finset.not_nonempty_iff_eq_empty] at h
    simp [h]

/-! The set of keys a tree holds, and the representation invariant. -/

/-- The set of keys stored in a tree: the cached min and max plus, at non
base levels, every key i * sqrt + y with y stored in cluster i. -/
def elemsOf : (k : Nat) → vEB k → Finset Nat
  | 0, .leaf mn mx => mn.toFinset ∪ mx.toFinset
  | k + 1, .node mn mx _ c =>
    mn.toFinset ∪ mx.toFinset ∪
      Finset.univ.biUnion
        (fun i : Fin (usize k) => (elemsOf k (c i)).image (vget k i.val))

/-- The representation invariant.  With b = false it is the weak form that
any sequence of in-range inserts preserves; with b = true it adds the
strict lazy-minimum property (the cached min of a non base level is not
stored in any cluster), which holds as long as no duplicate key is
inserted.  Clauses at a non base level: summary and clusters are well
formed; the summary holds exactly the indices of non empty clusters; min
and max are both absent with all clusters empty, or min = m and max = M
with m ≤ M < size, every cluster key between m (strictly above m when
strict) and M, and M attained (M = m or M stored in a cluster). -/
def WF (b : Bool) : (k : Nat) → vEB k → Prop
  | 0, .leaf mn mx =>
    (mn = none ∧ mx = none) ∨
    (∃ m M, mn = some m ∧ mx = some M ∧ m ≤ M ∧ M < 2)
  | k + 1, .node mn mx s c =>
    WF b k s ∧ (∀ i, WF b k (c i)) ∧
    (∀ j, j ∈ elemsOf k s ↔ ∃ h : j < usize k, (elemsOf k (c ⟨j, h⟩)).Nonempty) ∧
    ((mn = none ∧ mx = none ∧ ∀ i, elemsOf k (c i) = ∅) ∨
     (∃ m M, mn = some m ∧ mx = some M ∧ m ≤ M ∧ M < usize (k + 1) ∧
       (∀ (i : Fin (usize k)) y, y ∈ elemsOf k (c i) →
         (b = true → m < vget k i.val y) ∧ m ≤ vget k i.val y ∧ vget k i.val y ≤ M) ∧
       (M = m ∨ ∃ (i : Fin (usize k)) (y : Nat), y ∈ elemsOf k (c i) ∧ vget k i.val y = M)))

theorem elemsOf_leaf (mn mx : Option Nat) :
    elemsOf 0 (.leaf mn mx) = mn.toFinset ∪ mx.toFinset := rfl

theorem elemsOf_node {k : Nat} (mn mx : Option Nat) (s : vEB k)
    (c : Fin (usize k) → vEB k) :
    elemsOf (k + 1) (.node mn mx s c) =
      mn.toFinset ∪ mx.toFinset ∪
        Finset.univ.biUnion
          (fun i : Fin (usize k) => (elemsOf k (c i)).image (vget k i.val)) := rfl

theorem WF_leaf {b : Bool} {mn mx : Option Nat} :
    WF b 0 (.leaf mn mx) ↔
      (mn = none ∧ mx = none) ∨
      (∃ m M, mn = some m ∧ mx = some M ∧ m ≤ M ∧ M < 2) := Iff.rfl

theorem WF_node {b : Bool} {k : Nat} {mn mx : Option Nat} {s : vEB k}
    {c : Fin (usize k) → vEB k} :
    WF b (k + 1) (.node mn mx s c) ↔
      (WF b k s ∧ (∀ i, WF b k (c i)) ∧
      (∀ j, j ∈ elemsOf k s ↔ ∃ h : j < usize k, (elemsOf k (c ⟨j, h⟩)).Nonempty) ∧
      ((mn = none ∧ mx = none ∧ ∀ i, elemsOf k (c i) = ∅) ∨
       (∃ m M, mn = some m ∧ mx = some M ∧ m ≤ M ∧ M < usize (k + 1) ∧
         (∀ (i : Fin (usize k)) y, y ∈ elemsOf k (c i) →
           (b = true → m < vget k i.val y) ∧ m ≤ vget k i.val y ∧ vget k i.val y ≤ M) ∧
         (M = m ∨ ∃ (i : Fin (usize k)) (y : Nat),
           y ∈ elemsOf k (c i) ∧ vget k i.val y = M)))) := Iff.rfl

theorem mem_elemsOf_node {k : Nat} {mn mx : Option Nat} {s : vEB k}
    {c : Fin (usize k) → vEB k} {x : Nat} :
    x ∈ elemsOf (k + 1) (.node mn mx s c) ↔
      mn = some x ∨ mx = some x ∨
        ∃ (i : Fin (usize k)) (y : Nat), y ∈ elemsOf k (c i) ∧ vget k i.val y = x := by
  simp only [elemsOf_node, Finset.mem_union, Finset.mem_biUnion, Finset.mem_univ,
    Finset.mem_image, Option.mem_toFinset, Option.mem_def, true_and, or_assoc]

theorem elems_init (k : Nat) : elemsOf k (vEB.init k) = ∅ := by
  induction k with
  | zero => rfl
  | succ k ih =>
    rw [vEB.init, elemsOf_node]
    rw [Finset.eq_empty_iff_forall_not_mem]
    intro x
    simp [ih]

theorem wf_init (b : Bool) (k : Nat) : WF b k (vEB.init k) := by
  induction k with
  | zero => exact Or.inl ⟨rfl, rfl⟩
  | succ k ih =>
    rw [vEB.init, WF_node]
    refine ⟨ih, fun _ => ih, ?_, Or.inl ⟨rfl, rfl, fun _ => elems_init k⟩⟩
    intro j
    simp [elems_init]

/-- Structure of min, max and the key set under the invariant: either the
tree is empty with both fields absent, or min and max are attained bounds. -/
theorem wf_minmax {b : Bool} {k : Nat} {t : vEB k} (h : WF b k t) :
    (t.min = none ∧ t.max = none ∧ elemsOf k t = ∅) ∨
    (∃ m M, t.min = some m ∧ t.max = some M ∧ m ∈ elemsOf k t ∧ M ∈ elemsOf k t ∧
      M < usize k ∧ ∀ x ∈ elemsOf k t, m ≤ x ∧ x ≤ M) := by
  cases t with
  | leaf mn mx =>
    rcases h with ⟨h1, h2⟩ | ⟨m, M, h1, h2, hle, hM⟩
    · subst h1; subst h2
      exact Or.inl ⟨rfl, rfl, rfl⟩
    · subst h1; subst h2
      refine Or.inr ⟨m, M, rfl, rfl, ?_, ?_, hM, ?_⟩
      · simp [elemsOf_leaf, Option.mem_toFinset]
      · simp [elemsOf_leaf, Option.mem_toFinset]
      · intro x hx
        simp only [elemsOf_leaf, Finset.mem_union, Option.mem_toFinset,
          Option.mem_def, Option.some.injEq] at hx
        rcases hx with rfl | rfl
        · exact ⟨le_refl _, hle⟩
        · exact ⟨hle, le_refl _⟩
  | node mn mx s c =>
    rw [WF_node] at h
    obtain ⟨_, _, _, hcase⟩ := h
    rcases hcase with ⟨h1, h2, hemp⟩ | ⟨m, M, h1, h2, hle, hM, hbound, _⟩
    · subst h1; subst h2
      refine Or.inl ⟨rfl, rfl, ?_⟩
      rw [elemsOf_node, Finset.eq_empty_iff_forall_not_mem]
      intro x
      simp [hemp]
    · subst h1; subst h2
      refine Or.inr ⟨m, M, rfl, rfl, ?_, ?_, hM, ?_⟩
      · exact mem_elemsOf_node.mpr (Or.inl rfl)
      · exact mem_elemsOf_node.mpr (Or.inr (Or.inl rfl))
      · intro x hx
        rcases mem_elemsOf_node.mp hx with hx | hx | ⟨i, y, hy, rfl⟩
        · cases hx; exact ⟨le_refl _, hle⟩
        · cases hx; exact ⟨hle, le_refl _⟩
        · exact ⟨(hbound i y hy).2.1, (hbound i y hy).2.2⟩

theorem wf_elems_lt {b : Bool} {k : Nat} {t : vEB k} (h : WF b k t) {x : Nat}
    (hx : x ∈ elemsOf k t) : x < usize k := by
  rcases wf_minmax h with ⟨_, _, hemp⟩ | ⟨m, M, _, _, _, _, hM, hall⟩
  · rw [hemp] at hx
    exact absurd hx (Finset.not_mem_empty x)
  · exact lt_of_le_of_lt (hall x hx).2 hM

theorem wf_min_eq {b : Bool} {k : Nat} {t : vEB k} (h : WF b k t) :
    t.min = oMin (elemsOf k t) := by
  rcases wf_minmax h with ⟨h1, _, hemp⟩ | ⟨m, M, h1, _, hm, _, _, hall⟩
  · rw [h1, hemp, oMin_empty]
  · rw [h1, eq_comm, oMin_eq_some_iff]
    exact ⟨hm, fun x hx => (hall x hx).1⟩

theorem wf_max_eq {b : Bool} {k : Nat} {t : vEB k} (h : WF b k t) :
    t.max = oMax (elemsOf k t) := by
  rcases wf_minmax h with ⟨_, h2, hemp⟩ | ⟨m, M, _, h2, _, hM, _, hall⟩
  · rw [h2, hemp, oMax_empty]
  · rw [h2, eq_comm, oMax_eq_some_iff]
    exact ⟨hM, fun x hx => (hall x hx).2⟩

theorem wf_min_none_iff {b : Bool} {k : Nat} {t : vEB k} (h : WF b k t) :
    t.min = none ↔ elemsOf k t = ∅ := by
  rw [wf_min_eq h, oMin_eq_none_iff]

theorem wf_max_none_iff {b : Bool} {k : Nat} {t : vEB k} (h : WF b k t) :
    t.max = none ↔ elemsOf k t = ∅ := by
  rw [wf_max_eq h, oMax_eq_none_iff]

theorem wf_weaken {k : Nat} {t : vEB k} (h : WF true k t) : WF false k t := by
  induction k with
  | zero => cases t; exact h
  | succ k ih =>
    cases t with
    | node mn mx s c =>
      rw [WF_node] at h ⊢
      obtain ⟨hs, hc, hsum, hcase⟩ := h
      refine ⟨ih hs, fun i => ih (hc i), hsum, ?_⟩
      rcases hcase with hemp | ⟨m, M, h1, h2, hle, hM, hbound, hatt⟩
      · exact Or.inl hemp
      · refine Or.inr ⟨m, M, h1, h2, hle, hM, ?_, hatt⟩
        intro i y hy
        exact ⟨fun hb => Bool.noConfusion hb, (hbound i y hy).2.1, (hbound i y hy).2.2⟩

theorem cidx_lt {k i : Nat} (c : Fin (usize k) → vEB k) (hi : i < usize k) :
    cidx c i = some (c ⟨i, hi⟩) := dif_pos hi

/-- Membership through one level of decomposition: with the cached min and
max ruled out, a key is stored iff its low part is stored in its cluster. -/
theorem mem_elems_cluster {b : Bool} {k : Nat} {mn mx : Option Nat} {s : vEB k}
    {c : Fin (usize k) → vEB k} {e : Nat} (h : WF b (k + 1) (.node mn mx s c))
    (he : e < usize (k + 1)) (hmn : mn ≠ some e) (hmx : mx ≠ some e) :
    e ∈ elemsOf (k + 1) (.node mn mx s c) ↔
      vlow k e ∈ elemsOf k (c ⟨vhigh k e, vhigh_lt he⟩) := by
  obtain ⟨_, hc, _, _⟩ := WF_node.mp h
  rw [mem_elemsOf_node]
  constructor
  · rintro (h1 | h1 | ⟨i, y, hy, rfl⟩)
    · exact absurd h1 hmn
    · exact absurd h1 hmx
    · have hylt : y < usize k := wf_elems_lt (hc i) hy
      have h1 : vhigh k (vget k i.val y) = i.val := vget_high hylt
      have h2 : vlow k (vget k i.val y) = y := vget_low hylt
      rw [h2]
      have : (⟨vhigh k (vget k i.val y), vhigh_lt he⟩ : Fin (usize k)) = i :=
        Fin.ext h1
      rw [this]
      exact hy
  · intro h1
    refine Or.inr (Or.inr ⟨⟨vhigh k e, vhigh_lt he⟩, vlow k e, h1, ?_⟩)
    exact vget_high_low k e

/-- vEB.isin decides membership in the key set, for in-range keys of well
formed trees, without raising. -/
theorem isin_correct {b : Bool} : ∀ (k : Nat) (t : vEB k) (e : Nat),
    WF b k t → e < usize k → vEB.isin k t e = some (decide (e ∈ elemsOf k t)) := by
  intro k
  induction k with
  | zero =>
    intro t e _ _
    cases t with
    | leaf mn mx =>
      rw [vEB.isin]
      congr 1
      rw [decide_eq_decide]
      simp only [elemsOf_leaf, Finset.mem_union, Option.mem_toFinset, Option.mem_def]
      constructor
      · rintro (h | h) <;> [exact Or.inl h.symm; exact Or.inr h.symm]
      · rintro (h | h) <;> [exact Or.inl h.symm; exact Or.inr h.symm]
  | succ k ih =>
    intro t e hwf he
    cases t with
    | node mn mx s c =>
      obtain ⟨_, hc, _, _⟩ := WF_node.mp hwf
      rw [vEB.isin]
      by_cases hmm : some e = mn ∨ some e = mx
      · rw [if_pos hmm]
        have : e ∈ elemsOf (k + 1) (.node mn mx s c) := by
          rcases hmm with h | h
          · exact mem_elemsOf_node.mpr (Or.inl h.symm)
          · exact mem_elemsOf_node.mpr (Or.inr (Or.inl h.symm))
        simp [this]
      · rw [if_neg hmm]
        push_neg at hmm
        rw [cidx_lt c (vhigh_lt he)]
        show vEB.isin k (c ⟨vhigh k e, vhigh_lt he⟩) (vlow k e) = _
        rw [ih _ _ (hc _) (vlow_lt k e)]
        congr 1
        rw [decide_eq_decide]
        exact (mem_elems_cluster hwf he (fun h1 => hmm.1 h1.symm)
          (fun h1 => hmm.2 h1.symm)).symm

theorem vget_le_vget_left {k i y y' : Nat} (h : y ≤ y') : vget k i y ≤ vget k i y' :=
  Nat.add_le_add_left h _

/-- Unpacking the invariant of a node known to be non empty. -/
theorem wf_node_full {b : Bool} {k : Nat} {mn mx : Option Nat} {s : vEB k}
    {c : Fin (usize k) → vEB k} {m : Nat} (h : WF b (k + 1) (.node mn mx s c))
    (hmn : mn = some m) :
    ∃ M, mx = some M ∧ m ≤ M ∧ M < usize (k + 1) ∧
      (∀ (i : Fin (usize k)) (y : Nat), y ∈ elemsOf k (c i) →
        (b = true → m < vget k i.val y) ∧ m ≤ vget k i.val y ∧ vget k i.val y ≤ M) ∧
      (M = m ∨ ∃ (i : Fin (usize k)) (y : Nat),
        y ∈ elemsOf k (c i) ∧ vget k i.val y = M) := by
  obtain ⟨_, _, _, hcase⟩ := WF_node.mp h
  rcases hcase with ⟨h1, _, _⟩ | ⟨m', M, h1, h2, hle, hM, hbound, hatt⟩
  · rw [h1] at hmn
    exact absurd hmn (by simp)
  · rw [h1] at hmn
    injection hmn with hmn
    subst hmn
    exact ⟨M, h2, hle, hM, hbound, hatt⟩

/-- Any stored key above the cached min decomposes into a cluster entry. -/
theorem mem_cluster_form {b : Bool} {k : Nat} {mn mx : Option Nat} {s : vEB k}
    {c : Fin (usize k) → vEB k} {m : Nat} (h : WF b (k + 1) (.node mn mx s c))
    (hmn : mn = some m) {x e : Nat} (hme : m ≤ e)
    (hx : x ∈ elemsOf (k + 1) (.node mn mx s c)) (hex : e < x) :
    ∃ (i : Fin (usize k)) (y : Nat), y ∈ elemsOf k (c i) ∧ vget k i.val y = x := by
  obtain ⟨M, hmx, _, _, _, hatt⟩ := wf_node_full h hmn
  rcases mem_elemsOf_node.mp hx with h1 | h1 | h1
  · rw [hmn] at h1
    injection h1 with h1
    omega
  · rw [hmx] at h1
    injection h1 with h1
    subst h1
    rcases hatt with h2 | h2
    · omega
    · exact h2
  · exact h1

/-- The empty-node case of the invariant: every cluster is empty and so is
the summary. -/
theorem wf_node_empty {b : Bool} {k : Nat} {mn mx : Option Nat} {s : vEB k}
    {c : Fin (usize k) → vEB k} (h : WF b (k + 1) (.node mn mx s c))
    (hmn : mn = none) :
    mx = none ∧ (∀ i, elemsOf k (c i) = ∅) ∧ elemsOf k s = ∅ := by
  obtain ⟨_, _, hsum, hcase⟩ := WF_node.mp h
  rcases hcase with ⟨_, h2, hemp⟩ | ⟨m', M, h1, _⟩
  · refine ⟨h2, hemp, ?_⟩
    rw [Finset.eq_empty_iff_forall_not_mem]
    intro j hj
    obtain ⟨hlt, hne⟩ := (hsum j).mp hj
    rw [hemp ⟨j, hlt⟩] at hne
    exact absurd hne (by simp)
  · rw [h1] at hmn
    exact absurd hmn (by simp)

/-- vEB.successor returns the least stored key strictly above e (none when
no such key exists), for in-range keys of well formed trees, without
raising. -/
theorem succ_correct {b : Bool} : ∀ (k : Nat) (t : vEB k) (e : Nat),
    WF b k t → e < usize k →
    vEB.successor k t e =
      some (oMin ((elemsOf k t).filter (fun y => e < y))) := by
  intro k
  induction k with
  | zero =>
    intro t e hwf he
    have hu0 : usize 0 = 2 := rfl
    rw [hu0] at he
    cases t with
    | leaf mn mx =>
      rw [vEB.successor]
      rcases hwf with ⟨h1, h2⟩ | ⟨m, M, h1, h2, hle, hM⟩
      · subst h1; subst h2
        rw [if_neg (by simp)]
        rw [elemsOf_leaf]
        simp [oMin_empty]
      · subst h1; subst h2
        have helems : elemsOf 0 (vEB.leaf (some m) (some M)) = {m} ∪ {M} := by
          rw [elemsOf_leaf]; rfl
        by_cases hcond : e = 0 ∧ M = 1
        · rw [if_pos (by simp [hcond.1, hcond.2])]
          obtain ⟨rfl, rfl⟩ := hcond
          have : oMin (Finset.filter (fun y => 0 < y)
              (elemsOf 0 (vEB.leaf (some m) (some 1)))) = some 1 := by
            rw [oMin_eq_some_iff]
            constructor
            · rw [Finset.mem_filter, helems]
              simp
            · intro x hx
              rw [Finset.mem_filter, helems] at hx
              simp only [Finset.mem_union, Finset.mem_singleton] at hx
              omega
          rw [this]
        · rw [if_neg (by simp; intro h1 h2; exact hcond ⟨h1, by omega⟩)]
          have : Finset.filter (fun y => e < y)
              (elemsOf 0 (vEB.leaf (some m) (some M))) = ∅ := by
            rw [Finset.eq_empty_iff_forall_not_mem]
            intro x hx
            rw [Finset.mem_filter, helems] at hx
            simp only [Finset.mem_union, Finset.mem_singleton] at hx
            rcases hx.1 with rfl | rfl
            · have := hx.2; omega
            · have := hx.2
              have hx1 : x = 1 := by omega
              exact hcond ⟨by omega, by omega⟩
          rw [this, oMin_empty]
  | succ k ih =>
    intro t e hwf he
    cases t with
    | node mn mx s c =>
      obtain ⟨hs, hc, hsum, _⟩ := WF_node.mp hwf
      rw [vEB.successor]
      cases hmn : mn with
      | none =>
        subst hmn
        obtain ⟨hmx, hemp, hsemp⟩ := wf_node_empty hwf rfl
        subst hmx
        have hS : elemsOf (k + 1) (vEB.node none none s c) = ∅ := by
          rcases wf_minmax hwf with ⟨_, _, h3⟩ | ⟨m', M', h1, _⟩
          · exact h3
          · exact absurd h1 (by simp [vEB.min])
        rw [if_neg (by simp [Option.any])]
        split
        · rename_i hnone
          rw [cidx_lt c (vhigh_lt he)] at hnone
          cases hnone
        · rename_i ci hci
          rw [cidx_lt c (vhigh_lt he)] at hci
          injection hci with hci
          subst hci
          have hmax : (c ⟨vhigh k e, vhigh_lt he⟩).max = none := by
            rw [wf_max_none_iff (hc _)]
            exact hemp _
          rw [if_neg (by simp [hmax, Option.any])]
          rw [ih s (vhigh k e) hs (vhigh_lt he), hsemp]
          rw [hS]
          simp [oMin_empty]
      | some m =>
        subst hmn
        obtain ⟨M, hmx, hle, hM, hbound, hatt⟩ := wf_node_full hwf rfl
        subst hmx
        have hmem_m : m ∈ elemsOf (k + 1) (vEB.node (some m) (some M) s c) :=
          mem_elemsOf_node.mpr (Or.inl rfl)
        by_cases hem : e < m
        · rw [if_pos (by simp [Option.any, hem])]
          have : oMin (Finset.filter (fun y => e < y)
              (elemsOf (k + 1) (vEB.node (some m) (some M) s c))) = some m := by
            rw [oMin_eq_some_iff]
            constructor
            · rw [Finset.mem_filter]
              exact ⟨hmem_m, hem⟩
            · intro x hx
              rw [Finset.mem_filter] at hx
              rcases wf_minmax hwf with ⟨h1, _⟩ | ⟨m', M', h1, _, _, _, _, hall⟩
              · exact absurd h1 (by simp [vEB.min])
              · have hm' : m' = m := by
                  simp only [vEB.min] at h1
                  injection h1 with h1
                  omega
                subst hm'
                exact (hall x hx.1).1
          rw [this]
        · have hme : m ≤ e := by omega
          rw [if_neg (by simp [Option.any, hem])]
          split
          · rename_i hnone
            rw [cidx_lt c (vhigh_lt he)] at hnone
            cases hnone
          · rename_i ci hci
            rw [cidx_lt c (vhigh_lt he)] at hci
            injection hci with hci
            subst hci
            by_cases hcond :
                ((c ⟨vhigh k e, vhigh_lt he⟩).max).any
                  (fun ml => decide (vlow k e < ml)) = true
            · -- the target cluster holds a key above low(e): recurse there
              rw [if_pos hcond]
              obtain ⟨ml, hml, hlml⟩ : ∃ ml,
                  (c ⟨vhigh k e, vhigh_lt he⟩).max = some ml ∧ vlow k e < ml := by
                cases hml : (c ⟨vhigh k e, vhigh_lt he⟩).max with
                | none => rw [hml] at hcond; simp [Option.any] at hcond
                | some ml =>
                  rw [hml] at hcond
                  simp only [Option.any, decide_eq_true_eq] at hcond
                  exact ⟨ml, rfl, hcond⟩
              have hmlmem : ml ∈ elemsOf k (c ⟨vhigh k e, vhigh_lt he⟩) ∧
                  ∀ x ∈ elemsOf k (c ⟨vhigh k e, vhigh_lt he⟩), x ≤ ml := by
                have := wf_max_eq (hc ⟨vhigh k e, vhigh_lt he⟩)
                rw [hml] at this
                exact oMax_eq_some_iff.mp this.symm
              rw [ih _ _ (hc ⟨vhigh k e, vhigh_lt he⟩) (vlow_lt k e)]
              cases hoff : oMin ((elemsOf k (c ⟨vhigh k e, vhigh_lt he⟩)).filter
                  (fun y => vlow k e < y)) with
              | none =>
                rw [oMin_eq_none_iff] at hoff
                rw [Finset.eq_empty_iff_forall_not_mem] at hoff
                exact absurd (Finset.mem_filter.mpr ⟨hmlmem.1, hlml⟩) (hoff ml)
              | some off =>
                obtain ⟨hoffmem, hoffmin⟩ := oMin_eq_some_iff.mp hoff
                rw [Finset.mem_filter] at hoffmem
                have hofflt : off < usize k := wf_elems_lt (hc _) hoffmem.1
                show some (some (vget k (vhigh k e) off)) = _
                have : oMin (Finset.filter (fun y => e < y)
                    (elemsOf (k + 1) (vEB.node (some m) (some M) s c))) =
                      some (vget k (vhigh k e) off) := by
                  rw [oMin_eq_some_iff]
                  constructor
                  · rw [Finset.mem_filter]
                    constructor
                    · exact mem_elemsOf_node.mpr (Or.inr (Or.inr
                        ⟨⟨vhigh k e, vhigh_lt he⟩, off, hoffmem.1, rfl⟩))
                    · conv_lhs => rw [← vget_high_low k e]
                      rw [vget_lt_vget_iff (vlow_lt k e) hofflt]
                      exact Or.inr ⟨rfl, hoffmem.2⟩
                  · intro x hx
                    rw [Finset.mem_filter] at hx
                    obtain ⟨i, y, hy, rfl⟩ :=
                      mem_cluster_form hwf rfl hme hx.1 hx.2
                    have hylt : y < usize k := wf_elems_lt (hc i) hy
                    have hex : e < vget k i.val y := hx.2
                    conv_lhs at hex => rw [← vget_high_low k e]
                    rw [vget_lt_vget_iff (vlow_lt k e) hylt] at hex
                    rcases hex with h1 | ⟨h1, h2⟩
                    · exact (vget_lt_of_high_lt y h1 hofflt).le
                    · have hieq : (⟨vhigh k e, vhigh_lt he⟩ : Fin (usize k)) = i :=
                        Fin.ext h1
                      rw [← hieq] at hy
                      have : off ≤ y :=
                        hoffmin y (Finset.mem_filter.mpr ⟨hy, h2⟩)
                      rw [← h1]
                      exact vget_le_vget_left this
                rw [this]
            · -- the target cluster is exhausted: use the summary
              rw [if_neg hcond]
              have hnoc : ∀ y ∈ elemsOf k (c ⟨vhigh k e, vhigh_lt he⟩),
                  y ≤ vlow k e := by
                intro y hy
                cases hml : (c ⟨vhigh k e, vhigh_lt he⟩).max with
                | none =>
                  rw [wf_max_none_iff (hc _)] at hml
                  rw [hml] at hy
                  exact absurd hy (Finset.not_mem_empty y)
                | some ml =>
                  have h1 := wf_max_eq (hc ⟨vhigh k e, vhigh_lt he⟩)
                  rw [hml] at h1
                  obtain ⟨_, hub⟩ := oMax_eq_some_iff.mp h1.symm
                  have h2 : ¬ vlow k e < ml := by
                    rw [hml] at hcond
                    simpa [Option.any] using hcond
                  exact le_trans (hub y hy) (by omega)
              rw [ih s (vhigh k e) hs (vhigh_lt he)]
              cases hsm : oMin ((elemsOf k s).filter (fun j => vhigh k e < j)) with
              | none =>
                show some none = _
                rw [oMin_eq_none_iff] at hsm
                have hF : Finset.filter (fun y => e < y)
                    (elemsOf (k + 1) (vEB.node (some m) (some M) s c)) = ∅ := by
                  rw [Finset.eq_empty_iff_forall_not_mem]
                  intro x hx
                  rw [Finset.mem_filter] at hx
                  obtain ⟨i, y, hy, rfl⟩ :=
                    mem_cluster_form hwf rfl hme hx.1 hx.2
                  have hylt : y < usize k := wf_elems_lt (hc i) hy
                  have hex : e < vget k i.val y := hx.2
                  conv_lhs at hex => rw [← vget_high_low k e]
                  rw [vget_lt_vget_iff (vlow_lt k e) hylt] at hex
                  rcases hex with h1 | ⟨h1, h2⟩
                  · have hmem : i.val ∈ elemsOf k s := by
                      rw [hsum i.val]
                      exact ⟨i.isLt, ⟨y, by
                        have : (⟨i.val, i.isLt⟩ : Fin (usize k)) = i := Fin.ext rfl
                        rw [this]
                        exact hy⟩⟩
                    have : i.val ∈ (elemsOf k s).filter (fun j => vhigh k e < j) :=
                      Finset.mem_filter.mpr ⟨hmem, h1⟩
                    rw [hsm] at this
                    exact absurd this (Finset.not_mem_empty _)
                  · have hieq : (⟨vhigh k e, vhigh_lt he⟩ : Fin (usize k)) = i :=
                      Fin.ext h1
                    rw [← hieq] at hy
                    have := hnoc y hy
                    omega
                rw [hF, oMin_empty]
              | some sc =>
                obtain ⟨hscmem, hscmin⟩ := oMin_eq_some_iff.mp hsm
                rw [Finset.mem_filter] at hscmem
                have hsclt : sc < usize k := wf_elems_lt hs hscmem.1
                obtain ⟨h', hne⟩ := (hsum sc).mp hscmem.1
                have hfin : (⟨sc, h'⟩ : Fin (usize k)) = ⟨sc, hsclt⟩ := Fin.ext rfl
                rw [hfin] at hne
                split
                · rename_i heq
                  exact absurd heq (by simp)
                · rename_i heq
                  exact absurd heq (by simp)
                · rename_i sc2 heq
                  have hsc2 : sc2 = sc := by
                    injection heq with heq2
                    injection heq2 with heq3
                    exact heq3.symm
                  rw [hsc2]
                  split
                  · rename_i hnone
                    rw [cidx_lt c hsclt] at hnone
                    cases hnone
                  · rename_i csc hcsc
                    rw [cidx_lt c hsclt] at hcsc
                    injection hcsc with hcsc
                    subst hcsc
                    split
                    · rename_i hmin0
                      rw [wf_min_none_iff (hc _)] at hmin0
                      rw [hmin0] at hne
                      exact absurd hne (by simp)
                    · rename_i off hoff2
                      have h1 := wf_min_eq (hc (⟨sc, hsclt⟩ : Fin (usize k)))
                      rw [hoff2] at h1
                      obtain ⟨hoffmem, hoffmin⟩ := oMin_eq_some_iff.mp h1.symm
                      have hofflt : off < usize k := wf_elems_lt (hc _) hoffmem
                      have : oMin (Finset.filter (fun y => e < y)
                          (elemsOf (k + 1) (vEB.node (some m) (some M) s c))) =
                            some (vget k sc off) := by
                        rw [oMin_eq_some_iff]
                        constructor
                        · rw [Finset.mem_filter]
                          constructor
                          · exact mem_elemsOf_node.mpr (Or.inr (Or.inr
                              ⟨⟨sc, hsclt⟩, off, hoffmem, rfl⟩))
                          · conv_lhs => rw [← vget_high_low k e]
                            exact vget_lt_of_high_lt off hscmem.2 (vlow_lt k e)
                        · intro x hx
                          rw [Finset.mem_filter] at hx
                          obtain ⟨i, y, hy, rfl⟩ :=
                            mem_cluster_form hwf rfl hme hx.1 hx.2
                          have hylt : y < usize k := wf_elems_lt (hc i) hy
                          have hex : e < vget k i.val y := hx.2
                          conv_lhs at hex => rw [← vget_high_low k e]
                          rw [vget_lt_vget_iff (vlow_lt k e) hylt] at hex
                          rcases hex with h1 | ⟨h1, h2⟩
                          · have hmem : i.val ∈ elemsOf k s := by
                              rw [hsum i.val]
                              exact ⟨i.isLt, ⟨y, by
                                have h3 : (⟨i.val, i.isLt⟩ : Fin (usize k)) = i :=
                                  Fin.ext rfl
                                rw [h3]
                                exact hy⟩⟩
                            have hsci : sc ≤ i.val :=
                              hscmin i.val (Finset.mem_filter.mpr ⟨hmem, h1⟩)
                            rcases Nat.eq_or_lt_of_le hsci with h3 | h3
                            · have hieq : (⟨sc, hsclt⟩ : Fin (usize k)) = i :=
                                Fin.ext h3
                              rw [← hieq] at hy
                              have := hoffmin y hy
                              rw [← h3]
                              exact vget_le_vget_left this
                            · exact (vget_lt_of_high_lt y h3 hofflt).le
                          · have hieq : (⟨vhigh k e, vhigh_lt he⟩ : Fin (usize k)) = i :=
                              Fin.ext h1
                            rw [← hieq] at hy
                            have := hnoc y hy
                            omega
                      rw [this]

/-- vEB.predecessor returns the greatest stored key strictly below e (none
when no such key exists), for in-range keys of well formed trees, without
raising. -/
theorem pred_correct {b : Bool} : ∀ (k : Nat) (t : vEB k) (e : Nat),
    WF b k t → e < usize k →
    vEB.predecessor k t e =
      some (oMax ((elemsOf k t).filter (fun y => y < e))) := by
  intro k
  induction k with
  | zero =>
    intro t e hwf he
    have hu0 : usize 0 = 2 := rfl
    rw [hu0] at he
    cases t with
    | leaf mn mx =>
      rw [vEB.predecessor]
      rcases hwf with ⟨h1, h2⟩ | ⟨m, M, h1, h2, hle, hM⟩
      · subst h1; subst h2
        rw [if_neg (by simp)]
        rw [elemsOf_leaf]
        simp [oMax_empty]
      · subst h1; subst h2
        have helems : elemsOf 0 (vEB.leaf (some m) (some M)) = {m} ∪ {M} := by
          rw [elemsOf_leaf]; rfl
        by_cases hcond : e = 1 ∧ m = 0
        · rw [if_pos (by simp [hcond.1, hcond.2])]
          obtain ⟨rfl, rfl⟩ := hcond
          have : oMax (Finset.filter (fun y => y < 1)
              (elemsOf 0 (vEB.leaf (some 0) (some M)))) = some 0 := by
            rw [oMax_eq_some_iff]
            constructor
            · rw [Finset.mem_filter, helems]
              simp
            · intro x hx
              rw [Finset.mem_filter, helems] at hx
              simp only [Finset.mem_union, Finset.mem_singleton] at hx
              omega
          rw [this]
        · rw [if_neg (by simp; intro h1 h2; exact hcond ⟨h1, by omega⟩)]
          have : Finset.filter (fun y => y < e)
              (elemsOf 0 (vEB.leaf (some m) (some M))) = ∅ := by
            rw [Finset.eq_empty_iff_forall_not_mem]
            intro x hx
            rw [Finset.mem_filter, helems] at hx
            simp only [Finset.mem_union, Finset.mem_singleton] at hx
            have hx2 := hx.2
            rcases hx.1 with rfl | rfl
            · have hx1 : x = 0 ∧ e = 1 := by omega
              exact hcond ⟨hx1.2, hx1.1⟩
            · have hx1 : x = 0 ∧ e = 1 := by omega
              exact hcond ⟨hx1.2, by omega⟩
          rw [this, oMax_empty]
  | succ k ih =>
    intro t e hwf he
    cases t with
    | node mn mx s c =>
      obtain ⟨hs, hc, hsum, _⟩ := WF_node.mp hwf
      rw [vEB.predecessor]
      cases hmn : mn with
      | none =>
        subst hmn
        obtain ⟨hmx, hemp, hsemp⟩ := wf_node_empty hwf rfl
        subst hmx
        have hS : elemsOf (k + 1) (vEB.node none none s c) = ∅ := by
          rcases wf_minmax hwf with ⟨_, _, h3⟩ | ⟨m', M', h1, _⟩
          · exact h3
          · exact absurd h1 (by simp [vEB.min])
        rw [if_neg (by simp [Option.any])]
        split
        · rename_i hnone
          rw [cidx_lt c (vhigh_lt he)] at hnone
          cases hnone
        · rename_i ci hci
          rw [cidx_lt c (vhigh_lt he)] at hci
          injection hci with hci
          subst hci
          have hmin : (c ⟨vhigh k e, vhigh_lt he⟩).min = none := by
            rw [wf_min_none_iff (hc _)]
            exact hemp _
          rw [if_neg (by simp [hmin, Option.any])]
          rw [ih s (vhigh k e) hs (vhigh_lt he), hsemp]
          rw [hS]
          simp [oMax_empty, Option.any]
      | some m =>
        subst hmn
        obtain ⟨M, hmx, hle, hM, hbound, hatt⟩ := wf_node_full hwf rfl
        subst hmx
        have hmem_m : m ∈ elemsOf (k + 1) (vEB.node (some m) (some M) s c) :=
          mem_elemsOf_node.mpr (Or.inl rfl)
        have hmem_M : M ∈ elemsOf (k + 1) (vEB.node (some m) (some M) s c) :=
          mem_elemsOf_node.mpr (Or.inr (Or.inl rfl))
        have hub : ∀ x ∈ elemsOf (k + 1) (vEB.node (some m) (some M) s c),
            m ≤ x ∧ x ≤ M := by
          rcases wf_minmax hwf with ⟨h1, _⟩ | ⟨m', M', h1, h2, _, _, _, hall⟩
          · exact absurd h1 (by simp [vEB.min])
          · have hm' : m' = m := by
              simp only [vEB.min] at h1
              injection h1 with h1
              omega
            have hM' : M' = M := by
              simp only [vEB.max] at h2
              injection h2 with h2
              omega
            subst hm'; subst hM'
            exact hall
        by_cases heM : M < e
        · rw [if_pos (by simp [Option.any, heM])]
          have : oMax (Finset.filter (fun y => y < e)
              (elemsOf (k + 1) (vEB.node (some m) (some M) s c))) = some M := by
            rw [oMax_eq_some_iff]
            constructor
            · rw [Finset.mem_filter]
              exact ⟨hmem_M, heM⟩
            · intro x hx
              rw [Finset.mem_filter] at hx
              exact (hub x hx.1).2
          rw [this]
        · have heM' : e ≤ M := by omega
          rw [if_neg (by simp [Option.any, heM])]
          split
          · rename_i hnone
            rw [cidx_lt c (vhigh_lt he)] at hnone
            cases hnone
          · rename_i ci hci
            rw [cidx_lt c (vhigh_lt he)] at hci
            injection hci with hci
            subst hci
            by_cases hcond :
                ((c ⟨vhigh k e, vhigh_lt he⟩).min).any
                  (fun ml => decide (ml < vlow k e)) = true
            · -- the target cluster holds a key below low(e): recurse there
              rw [if_pos hcond]
              obtain ⟨ml, hml, hlml⟩ : ∃ ml,
                  (c ⟨vhigh k e, vhigh_lt he⟩).min = some ml ∧ ml < vlow k e := by
                cases hml : (c ⟨vhigh k e, vhigh_lt he⟩).min with
                | none => rw [hml] at hcond; simp [Option.any] at hcond
                | some ml =>
                  rw [hml] at hcond
                  simp only [Option.any, decide_eq_true_eq] at hcond
                  exact ⟨ml, rfl, hcond⟩
              have hmlmem : ml ∈ elemsOf k (c ⟨vhigh k e, vhigh_lt he⟩) := by
                have := wf_min_eq (hc ⟨vhigh k e, vhigh_lt he⟩)
                rw [hml] at this
                exact (oMin_eq_some_iff.mp this.symm).1
              rw [ih _ _ (hc ⟨vhigh k e, vhigh_lt he⟩) (vlow_lt k e)]
              cases hoff : oMax ((elemsOf k (c ⟨vhigh k e, vhigh_lt he⟩)).filter
                  (fun y => y < vlow k e)) with
              | none =>
                rw [oMax_eq_none_iff] at hoff
                rw [Finset.eq_empty_iff_forall_not_mem] at hoff
                exact absurd (Finset.mem_filter.mpr ⟨hmlmem, hlml⟩ :
                  ml ∈ Finset.filter (fun y => y < vlow k e)
                    (elemsOf k (c ⟨vhigh k e, vhigh_lt he⟩))) (hoff ml)
              | some off =>
                obtain ⟨hoffmem, hoffmax⟩ := oMax_eq_some_iff.mp hoff
                rw [Finset.mem_filter] at hoffmem
                have hofflt : off < usize k := wf_elems_lt (hc _) hoffmem.1
                show some (some (vget k (vhigh k e) off)) = _
                have : oMax (Finset.filter (fun y => y < e)
                    (elemsOf (k + 1) (vEB.node (some m) (some M) s c))) =
                      some (vget k (vhigh k e) off) := by
                  rw [oMax_eq_some_iff]
                  constructor
                  · rw [Finset.mem_filter]
                    constructor
                    · exact mem_elemsOf_node.mpr (Or.inr (Or.inr
                        ⟨⟨vhigh k e, vhigh_lt he⟩, off, hoffmem.1, rfl⟩))
                    · conv_rhs => rw [← vget_high_low k e]
                      rw [vget_lt_vget_iff hofflt (vlow_lt k e)]
                      exact Or.inr ⟨rfl, hoffmem.2⟩
                  · intro x hx
                    rw [Finset.mem_filter] at hx
                    rcases mem_elemsOf_node.mp hx.1 with h1 | h1 | ⟨i, y, hy, hxe⟩
                    · injection h1 with h1
                      subst h1
                      exact (hbound _ off hoffmem.1).2.1
                    · injection h1 with h1
                      omega
                    · subst hxe
                      have hylt : y < usize k := wf_elems_lt (hc i) hy
                      have hex : vget k i.val y < e := hx.2
                      conv_rhs at hex => rw [← vget_high_low k e]
                      rw [vget_lt_vget_iff hylt (vlow_lt k e)] at hex
                      rcases hex with h1 | ⟨h1, h2⟩
                      · exact (vget_lt_of_high_lt off h1 hylt).le
                      · have hieq : i = (⟨vhigh k e, vhigh_lt he⟩ : Fin (usize k)) :=
                          Fin.ext h1
                        rw [hieq] at hy
                        have : y ≤ off :=
                          hoffmax y (Finset.mem_filter.mpr ⟨hy, h2⟩)
                        rw [h1]
                        exact vget_le_vget_left this
                rw [this]
            · -- the target cluster has nothing below low(e): use the summary
              rw [if_neg hcond]
              have hnoc : ∀ y ∈ elemsOf k (c ⟨vhigh k e, vhigh_lt he⟩),
                  vlow k e ≤ y := by
                intro y hy
                cases hml : (c ⟨vhigh k e, vhigh_lt he⟩).min with
                | none =>
                  rw [wf_min_none_iff (hc _)] at hml
                  rw [hml] at hy
                  exact absurd hy (Finset.not_mem_empty y)
                | some ml =>
                  have h1 := wf_min_eq (hc ⟨vhigh k e, vhigh_lt he⟩)
                  rw [hml] at h1
                  obtain ⟨_, hlb⟩ := oMin_eq_some_iff.mp h1.symm
                  have h2 : ¬ ml < vlow k e := by
                    rw [hml] at hcond
                    simpa [Option.any] using hcond
                  have := hlb y hy
                  omega
              rw [ih s (vhigh k e) hs (vhigh_lt he)]
              cases hsm : oMax ((elemsOf k s).filter (fun j => j < vhigh k e)) with
              | none =>
                rw [oMax_eq_none_iff] at hsm
                have hclu : ∀ (i : Fin (usize k)) (y : Nat), y ∈ elemsOf k (c i) →
                    vget k i.val y < e → False := by
                  intro i y hy hex
                  have hylt : y < usize k := wf_elems_lt (hc i) hy
                  conv_rhs at hex => rw [← vget_high_low k e]
                  rw [vget_lt_vget_iff hylt (vlow_lt k e)] at hex
                  rcases hex with h1 | ⟨h1, h2⟩
                  · have hmem : i.val ∈ elemsOf k s := by
                      rw [hsum i.val]
                      exact ⟨i.isLt, ⟨y, by
                        have h3 : (⟨i.val, i.isLt⟩ : Fin (usize k)) = i := Fin.ext rfl
                        rw [h3]
                        exact hy⟩⟩
                    have : i.val ∈ (elemsOf k s).filter (fun j => j < vhigh k e) :=
                      Finset.mem_filter.mpr ⟨hmem, h1⟩
                    rw [hsm] at this
                    exact absurd this (Finset.not_mem_empty _)
                  · have hieq : i = (⟨vhigh k e, vhigh_lt he⟩ : Fin (usize k)) :=
                      Fin.ext h1
                    rw [hieq] at hy
                    have := hnoc y hy
                    omega
                split
                · rename_i hif
                  cases hif
                · split
                  · rename_i hif
                    have hme : m < e := by simpa [Option.any] using hif
                    have : oMax (Finset.filter (fun y => y < e)
                        (elemsOf (k + 1) (vEB.node (some m) (some M) s c))) =
                          some m := by
                      rw [oMax_eq_some_iff]
                      constructor
                      · exact Finset.mem_filter.mpr ⟨hmem_m, hme⟩
                      · intro x hx
                        rw [Finset.mem_filter] at hx
                        rcases mem_elemsOf_node.mp hx.1 with h1 | h1 | ⟨i, y, hy, hxe⟩
                        · injection h1 with h1
                          omega
                        · injection h1 with h1
                          have := hx.2
                          omega
                        · subst hxe
                          exact (hclu i y hy hx.2).elim
                    rw [this]
                  · rename_i hif
                    have hme : ¬ m < e := by simpa [Option.any] using hif
                    have : Finset.filter (fun y => y < e)
                        (elemsOf (k + 1) (vEB.node (some m) (some M) s c)) = ∅ := by
                      rw [Finset.eq_empty_iff_forall_not_mem]
                      intro x hx
                      rw [Finset.mem_filter] at hx
                      rcases mem_elemsOf_node.mp hx.1 with h1 | h1 | ⟨i, y, hy, hxe⟩
                      · injection h1 with h1
                        have := hx.2
                        omega
                      · injection h1 with h1
                        have := hx.2
                        omega
                      · subst hxe
                        exact hclu i y hy hx.2
                    rw [this, oMax_empty]
                · rename_i v hif
                  cases hif
              | some pc =>
                obtain ⟨hpcmem, hpcmax⟩ := oMax_eq_some_iff.mp hsm
                rw [Finset.mem_filter] at hpcmem
                have hpclt : pc < usize k := wf_elems_lt hs hpcmem.1
                obtain ⟨h', hne⟩ := (hsum pc).mp hpcmem.1
                have hfin : (⟨pc, h'⟩ : Fin (usize k)) = ⟨pc, hpclt⟩ := Fin.ext rfl
                rw [hfin] at hne
                split
                · rename_i heq
                  exact absurd heq (by simp)
                · rename_i heq
                  exact absurd heq (by simp)
                · rename_i pc2 heq
                  have hpc2 : pc2 = pc := by
                    injection heq with heq2
                    injection heq2 with heq3
                    exact heq3.symm
                  rw [hpc2]
                  split
                  · rename_i hnone
                    rw [cidx_lt c hpclt] at hnone
                    cases hnone
                  · rename_i cpc hcpc
                    rw [cidx_lt c hpclt] at hcpc
                    injection hcpc with hcpc
                    subst hcpc
                    split
                    · rename_i hmax0
                      rw [wf_max_none_iff (hc _)] at hmax0
                      rw [hmax0] at hne
                      exact absurd hne (by simp)
                    · rename_i off hoff2
                      have h1 := wf_max_eq (hc (⟨pc, hpclt⟩ : Fin (usize k)))
                      rw [hoff2] at h1
                      obtain ⟨hoffmem, hoffmax⟩ := oMax_eq_some_iff.mp h1.symm
                      have hofflt : off < usize k := wf_elems_lt (hc _) hoffmem
                      have : oMax (Finset.filter (fun y => y < e)
                          (elemsOf (k + 1) (vEB.node (some m) (some M) s c))) =
                            some (vget k pc off) := by
                        rw [oMax_eq_some_iff]
                        constructor
                        · rw [Finset.mem_filter]
                          constructor
                          · exact mem_elemsOf_node.mpr (Or.inr (Or.inr
                              ⟨⟨pc, hpclt⟩, off, hoffmem, rfl⟩))
                          · conv_rhs => rw [← vget_high_low k e]
                            exact vget_lt_of_high_lt (vlow k e) hpcmem.2 hofflt
                        · intro x hx
                          rw [Finset.mem_filter] at hx
                          rcases mem_elemsOf_node.mp hx.1 with h1 | h1 | ⟨i, y, hy, hxe⟩
                          · injection h1 with h1
                            subst h1
                            exact (hbound _ off hoffmem).2.1
                          · injection h1 with h1
                            have := hx.2
                            omega
                          · subst hxe
                            have hylt : y < usize k := wf_elems_lt (hc i) hy
                            have hex : vget k i.val y < e := hx.2
                            conv_rhs at hex => rw [← vget_high_low k e]
                            rw [vget_lt_vget_iff hylt (vlow_lt k e)] at hex
                            rcases hex with h1 | ⟨h1, h2⟩
                            · have hmem : i.val ∈ elemsOf k s := by
                                rw [hsum i.val]
                                exact ⟨i.isLt, ⟨y, by
                                  have h3 : (⟨i.val, i.isLt⟩ : Fin (usize k)) = i :=
                                    Fin.ext rfl
                                  rw [h3]
                                  exact hy⟩⟩
                              have hpci : i.val ≤ pc :=
                                hpcmax i.val (Finset.mem_filter.mpr ⟨hmem, h1⟩)
                              rcases Nat.eq_or_lt_of_le hpci with h3 | h3
                              · have hieq : i = (⟨pc, hpclt⟩ : Fin (usize k)) :=
                                  Fin.ext h3
                                rw [hieq] at hy
                                have := hoffmax y hy
                                rw [h3]
                                exact vget_le_vget_left this
                              · exact (vget_lt_of_high_lt off h3 hylt).le
                            · have hieq : i = (⟨vhigh k e, vhigh_lt he⟩ : Fin (usize k)) :=
                                Fin.ext h1
                              rw [hieq] at hy
                              have := hnoc y hy
                              omega
                      rw [this]

theorem cset_apply {k : Nat} (c : Fin (usize k) → vEB k) (h : Nat) (v : vEB k)
    (i : Fin (usize k)) : cset c h v i = if i.val = h then v else c i := rfl

theorem cset_same {k : Nat} (c : Fin (usize k) → vEB k) (h : Nat) (v : vEB k)
    (i : Fin (usize k)) (hi : i.val = h) : cset c h v i = v := if_pos hi

theorem cset_other {k : Nat} (c : Fin (usize k) → vEB k) (h : Nat) (v : vEB k)
    (i : Fin (usize k)) (hi : i.val ≠ h) : cset c h v i = c i := if_neg hi

/-- Directly assigning min and max of an empty tree (insert lines 92-93)
yields a well formed singleton. -/
theorem wf_setMinMax {b : Bool} {k : Nat} {t : vEB k} (h : WF b k t)
    (hemp : elemsOf k t = ∅) {l : Nat} (hl : l < usize k) :
    WF b k (t.setMinMax l) ∧ elemsOf k (t.setMinMax l) = {l} := by
  cases t with
  | leaf mn mx =>
    have h2 : usize 0 = 2 := rfl
    constructor
    · exact Or.inr ⟨l, l, rfl, rfl, le_refl l, by omega⟩
    · rw [vEB.setMinMax, elemsOf_leaf]
      simp
  | node mn mx s c =>
    cases hmn : mn with
    | some m =>
      subst hmn
      have : m ∈ elemsOf _ (vEB.node (some m) mx s c) :=
        mem_elemsOf_node.mpr (Or.inl rfl)
      rw [hemp] at this
      exact absurd this (Finset.not_mem_empty m)
    | none =>
      subst hmn
      obtain ⟨hs, hc, hsum, _⟩ := WF_node.mp h
      obtain ⟨hmx, hempc, hsemp⟩ := wf_node_empty h rfl
      constructor
      · rw [vEB.setMinMax, WF_node]
        refine ⟨hs, hc, hsum, Or.inr ⟨l, l, rfl, rfl, le_refl l, hl, ?_, Or.inl rfl⟩⟩
        intro i y hy
        rw [hempc i] at hy
        exact absurd hy (Finset.not_mem_empty y)
      · rw [vEB.setMinMax, elemsOf_node, Finset.ext_iff]
        intro x
        simp [hempc]

/-- Assembling the updated node after vEB.insert pushed the element (after
the conditional swap with the cached min) into cluster high(e1): both
insert branches produce this shape, with s2 the possibly updated summary
and v the updated cluster. -/
theorem insert_assemble {b : Bool} {k : Nat} {m M : Nat} {s : vEB k}
    {c : Fin (usize k) → vEB k}
    (hwf : WF b (k + 1) (.node (some m) (some M) s c))
    {e e1 m1 M1 : Nat} (he : e < usize (k + 1))
    (hem : (e1 = m ∧ m1 = e ∧ e < m) ∨ (e1 = e ∧ m1 = m ∧ m ≤ e))
    (hM1 : (M1 = e1 ∧ M < e1) ∨ (M1 = M ∧ e1 ≤ M))
    (hbne : b = true → e ∉ elemsOf (k + 1) (.node (some m) (some M) s c))
    {s2 : vEB k} (hs2wf : WF b k s2)
    (hs2el : elemsOf k s2 = insert (vhigh k e1) (elemsOf k s))
    {v : vEB k} (hvwf : WF b k v)
    (hvel : ∀ (h1 : vhigh k e1 < usize k),
      elemsOf k v = insert (vlow k e1)
        (elemsOf k (c ⟨vhigh k e1, h1⟩))) :
    WF b (k + 1) (.node (some m1) (some M1) s2 (cset c (vhigh k e1) v)) ∧
    elemsOf (k + 1) (.node (some m1) (some M1) s2 (cset c (vhigh k e1) v)) =
      insert e (elemsOf (k + 1) (.node (some m) (some M) s c)) := by
  obtain ⟨hs, hc, hsum, _⟩ := WF_node.mp hwf
  obtain ⟨M2, hM2eq, hle, hMlt, hbound, hatt⟩ := wf_node_full hwf rfl
  have hM2 : M2 = M := by injection hM2eq with h1; omega
  rw [hM2] at hle hMlt hbound hatt
  have he1lt : e1 < usize (k + 1) := by rcases hem with ⟨h1, _, _⟩ | ⟨h1, _, _⟩ <;> omega
  have hh1 : vhigh k e1 < usize k := vhigh_lt he1lt
  have hl1 : vlow k e1 < usize k := vlow_lt k e1
  have hv : elemsOf k v = insert (vlow k e1) (elemsOf k (c ⟨vhigh k e1, hh1⟩)) :=
    hvel hh1
  have hrt : vget k (vhigh k e1) (vlow k e1) = e1 := vget_high_low k e1
  have hm1e1 : m1 ≤ e1 := by rcases hem with ⟨h1, h2, h3⟩ | ⟨h1, h2, h3⟩ <;> omega
  have hm1m : m1 ≤ m := by rcases hem with ⟨h1, h2, h3⟩ | ⟨h1, h2, h3⟩ <;> omega
  have hM1e1 : e1 ≤ M1 := by rcases hM1 with ⟨h1, h2⟩ | ⟨h1, h2⟩ <;> omega
  have hMM1 : M ≤ M1 := by rcases hM1 with ⟨h1, h2⟩ | ⟨h1, h2⟩ <;> omega
  have hM1lt : M1 < usize (k + 1) := by
    rcases hM1 with ⟨h1, h2⟩ | ⟨h1, h2⟩ <;> omega
  have hstrict : b = true → m1 < e1 := by
    intro hb
    rcases hem with ⟨h1, h2, h3⟩ | ⟨h1, h2, h3⟩
    · omega
    · have : e ≠ m := by
        intro hcon
        exact hbne hb (hcon ▸ mem_elemsOf_node.mpr (Or.inl rfl))
      omega
  constructor
  · rw [WF_node]
    refine ⟨hs2wf, ?_, ?_, Or.inr ⟨m1, M1, rfl, rfl, by omega, hM1lt, ?_, ?_⟩⟩
    · intro i
      by_cases hi : i.val = vhigh k e1
      · rw [cset_same c _ v i hi]
        exact hvwf
      · rw [cset_other c _ v i hi]
        exact hc i
    · intro j
      rw [hs2el, Finset.mem_insert]
      by_cases hj : j = vhigh k e1
      · subst hj
        constructor
        · intro _
          refine ⟨hh1, ?_⟩
          rw [cset_same c (vhigh k e1) v ⟨vhigh k e1, hh1⟩ rfl, hv]
          exact Finset.insert_nonempty _ _
        · intro _
          exact Or.inl rfl
      · rw [hsum j]
        constructor
        · rintro (h1 | ⟨h1, hne⟩)
          · exact absurd h1 hj
          · refine ⟨h1, ?_⟩
            rw [cset_other c (vhigh k e1) v ⟨j, h1⟩ hj]
            exact hne
        · rintro ⟨h1, hne⟩
          rw [cset_other c (vhigh k e1) v ⟨j, h1⟩ hj] at hne
          exact Or.inr ⟨h1, hne⟩
    · intro i y hy
      by_cases hi : i.val = vhigh k e1
      · rw [cset_same c _ v i hi, hv] at hy
        have hieq : i = (⟨vhigh k e1, hh1⟩ : Fin (usize k)) := Fin.ext hi
        rcases Finset.mem_insert.mp hy with rfl | hy'
        · rw [hi, hrt]
          exact ⟨hstrict, hm1e1, hM1e1⟩
        · have hb := hbound ⟨vhigh k e1, hh1⟩ y hy'
          rw [← hieq] at hb
          exact ⟨fun h1 => lt_of_le_of_lt hm1m ((hb.1 h1)),
            le_trans hm1m hb.2.1, le_trans hb.2.2 hMM1⟩
      · rw [cset_other c _ v i hi] at hy
        have hb := hbound i y hy
        exact ⟨fun h1 => lt_of_le_of_lt hm1m (hb.1 h1),
          le_trans hm1m hb.2.1, le_trans hb.2.2 hMM1⟩
    · rcases hM1 with ⟨hM1eq, hlt⟩ | ⟨hM1eq, hge⟩
      · refine Or.inr ⟨⟨vhigh k e1, hh1⟩, vlow k e1, ?_, hrt.trans hM1eq.symm⟩
        rw [cset_same c (vhigh k e1) v ⟨vhigh k e1, hh1⟩ rfl, hv]
        exact Finset.mem_insert_self _ _
      · rcases hatt with hMm | ⟨i, y, hy, hvy⟩
        · have he1M : e1 = M := by omega
          refine Or.inr ⟨⟨vhigh k e1, hh1⟩, vlow k e1, ?_,
            hrt.trans (by omega)⟩
          rw [cset_same c (vhigh k e1) v ⟨vhigh k e1, hh1⟩ rfl, hv]
          exact Finset.mem_insert_self _ _
        · by_cases hi : i.val = vhigh k e1
          · have hieq : i = (⟨vhigh k e1, hh1⟩ : Fin (usize k)) := Fin.ext hi
            rw [hieq] at hy
            refine Or.inr ⟨i, y, ?_, hvy.trans hM1eq.symm⟩
            rw [cset_same c _ v i hi, hv]
            exact Finset.mem_insert_of_mem hy
          · refine Or.inr ⟨i, y, ?_, hvy.trans hM1eq.symm⟩
            rw [cset_other c _ v i hi]
            exact hy
  · rw [Finset.ext_iff]
    intro x
    rw [Finset.mem_insert, mem_elemsOf_node, mem_elemsOf_node]
    simp only [Option.some.injEq]
    constructor
    · rintro (rfl | rfl | ⟨i, y, hy, rfl⟩)
      · -- x = m1
        rcases hem with ⟨h1, h2, h3⟩ | ⟨h1, h2, h3⟩
        · exact Or.inl h2
        · exact Or.inr (Or.inl h2.symm)
      · -- x = M1
        rcases hM1 with ⟨h1, h2⟩ | ⟨h1, h2⟩
        · -- M1 = e1 is the new element or the old min
          rcases hem with ⟨h3, h4, h5⟩ | ⟨h3, h4, h5⟩
          · exact Or.inr (Or.inl (by omega))
          · exact Or.inl (by omega)
        · exact Or.inr (Or.inr (Or.inl h1.symm))
      · by_cases hi : i.val = vhigh k e1
        · rw [cset_same c _ v i hi, hv] at hy
          have hieq : i = (⟨vhigh k e1, hh1⟩ : Fin (usize k)) := Fin.ext hi
          rcases Finset.mem_insert.mp hy with rfl | hy'
          · rw [hi, hrt]
            rcases hem with ⟨h1, h2, h3⟩ | ⟨h1, h2, h3⟩
            · exact Or.inr (Or.inl (by omega))
            · exact Or.inl (by omega)
          · rw [← hieq] at hy'
            exact Or.inr (Or.inr (Or.inr ⟨i, y, hy', rfl⟩))
        · rw [cset_other c _ v i hi] at hy
          exact Or.inr (Or.inr (Or.inr ⟨i, y, hy, rfl⟩))
    · have hnew : vlow k e1 ∈ elemsOf k v := by
        rw [hv]; exact Finset.mem_insert_self _ _
      have hmem_e1 : ∃ (i : Fin (usize k)) (y : Nat),
          y ∈ elemsOf k (cset c (vhigh k e1) v i) ∧ vget k i.val y = e1 := by
        refine ⟨⟨vhigh k e1, hh1⟩, vlow k e1, ?_, hrt⟩
        rw [cset_same c (vhigh k e1) v ⟨vhigh k e1, hh1⟩ rfl]
        exact hnew
      rintro (rfl | rfl | rfl | ⟨i, y, hy, rfl⟩)
      · -- x = e
        rcases hem with ⟨h1, h2, h3⟩ | ⟨h1, h2, h3⟩
        · exact Or.inl h2
        · subst h1
          exact Or.inr (Or.inr hmem_e1)
      · -- x = m
        rcases hem with ⟨h1, h2, h3⟩ | ⟨h1, h2, h3⟩
        · subst h1
          exact Or.inr (Or.inr hmem_e1)
        · exact Or.inl h2
      · -- x = M
        rcases hatt with hMm | ⟨i, y, hy, hvy⟩
        · rcases hem with ⟨h1, h2, h3⟩ | ⟨h1, h2, h3⟩
          · -- swap happened, so e1 = m = M sits in the updated cluster
            obtain ⟨i, y, hyy, hvv⟩ := hmem_e1
            exact Or.inr (Or.inr ⟨i, y, hyy, by omega⟩)
          · exact Or.inl (by omega)
        · by_cases hi : i.val = vhigh k e1
          · have hieq : i = (⟨vhigh k e1, hh1⟩ : Fin (usize k)) := Fin.ext hi
            rw [hieq] at hy
            refine Or.inr (Or.inr ⟨i, y, ?_, hvy⟩)
            rw [cset_same c _ v i hi, hv]
            exact Finset.mem_insert_of_mem hy
          · refine Or.inr (Or.inr ⟨i, y, ?_, hvy⟩)
            rw [cset_other c _ v i hi]
            exact hy
      · by_cases hi : i.val = vhigh k e1
        · have hieq : i = (⟨vhigh k e1, hh1⟩ : Fin (usize k)) := Fin.ext hi
          rw [hieq] at hy
          refine Or.inr (Or.inr ⟨i, y, ?_, rfl⟩)
          rw [cset_same c _ v i hi, hv]
          exact Finset.mem_insert_of_mem hy
        · refine Or.inr (Or.inr ⟨i, y, ?_, rfl⟩)
          rw [cset_other c _ v i hi]
          exact hy

/-- vEB.insert never raises on an in-range key of a well formed tree, the
result is well formed (strictly when the key was not already stored), and
the key set gains exactly the inserted key. -/
theorem insert_ok {b : Bool} : ∀ (k : Nat) (t : vEB k) (e : Nat),
    WF b k t → e < usize k → (b = true → e ∉ elemsOf k t) →
    ∃ t', vEB.insert k t e = some t' ∧ WF b k t' ∧
      elemsOf k t' = insert e (elemsOf k t) := by
  intro k
  induction k with
  | zero =>
    intro t e hwf he hbne
    have h2 : usize 0 = 2 := rfl
    rw [h2] at he
    cases t with
    | leaf mn mx =>
      rcases hwf with ⟨h1, h1'⟩ | ⟨m, M, h1, h1', hle, hM⟩
      · subst h1; subst h1'
        refine ⟨.leaf (some e) (some e), rfl,
          Or.inr ⟨e, e, rfl, rfl, le_refl e, by omega⟩, ?_⟩
        rw [elemsOf_leaf, elemsOf_leaf, Finset.ext_iff]
        intro x
        simp
      · subst h1; subst h1'
        refine ⟨_, rfl, ?_, ?_⟩
        · refine Or.inr ⟨_, _, rfl, rfl, ?_, ?_⟩ <;> split_ifs <;> omega
        · rw [elemsOf_leaf, elemsOf_leaf, Finset.ext_iff]
          intro x
          simp only [Finset.mem_union, Option.mem_toFinset, Option.mem_def,
            Option.some.injEq, Finset.mem_insert]
          split_ifs <;> constructor <;> intro hh <;> omega
  | succ k ih =>
    intro t e hwf he hbne
    cases t with
    | node mn mx s c =>
      obtain ⟨hs, hc, hsum, _⟩ := WF_node.mp hwf
      cases hmn : mn with
      | none =>
        subst hmn
        obtain ⟨hmx, hemp, hsemp⟩ := wf_node_empty hwf rfl
        subst hmx
        have hS : elemsOf (k + 1) (vEB.node none none s c) = ∅ := by
          rcases wf_minmax hwf with ⟨_, _, h3⟩ | ⟨m', M', h1, _⟩
          · exact h3
          · exact absurd h1 (by simp [vEB.min])
        refine ⟨.node (some e) (some e) s c, rfl, ?_, ?_⟩
        · rw [WF_node]
          refine ⟨hs, hc, hsum, Or.inr ⟨e, e, rfl, rfl, le_refl e, he, ?_, Or.inl rfl⟩⟩
          intro i y hy
          rw [hemp i] at hy
          exact absurd hy (Finset.not_mem_empty y)
        · rw [hS, Finset.ext_iff]
          intro x
          rw [mem_elemsOf_node]
          simp [hemp, eq_comm]
      | some m =>
        subst hmn
        obtain ⟨M, hmx, hle, hMlt, hbound, hatt⟩ := wf_node_full hwf rfl
        subst hmx
        rw [vEB.insert]
        generalize hgm1 : (if e < m then e else m) = m1
        generalize hge1 : (if e < m then m else e) = e1
        generalize hgM1 : (if M < e1 then e1 else M) = M1
        have hem : (e1 = m ∧ m1 = e ∧ e < m) ∨ (e1 = e ∧ m1 = m ∧ m ≤ e) := by
          by_cases hsw : e < m
          · rw [if_pos hsw] at hge1 hgm1
            exact Or.inl ⟨hge1.symm, hgm1.symm, hsw⟩
          · rw [if_neg hsw] at hge1 hgm1
            exact Or.inr ⟨hge1.symm, hgm1.symm, by omega⟩
        have hM1 : (M1 = e1 ∧ M < e1) ∨ (M1 = M ∧ e1 ≤ M) := by
          by_cases hlt : M < e1
          · rw [if_pos hlt] at hgM1
            exact Or.inl ⟨hgM1.symm, hlt⟩
          · rw [if_neg hlt] at hgM1
            exact Or.inr ⟨hgM1.symm, by omega⟩
        have he1lt : e1 < usize (k + 1) := by
          rcases hem with ⟨h1, _, _⟩ | ⟨h1, _, _⟩ <;> omega
        have hh1 : vhigh k e1 < usize k := vhigh_lt he1lt
        rw [cidx_lt c hh1]
        cases hcm : (c ⟨vhigh k e1, hh1⟩).min with
        | none =>
          have hcemp : elemsOf k (c ⟨vhigh k e1, hh1⟩) = ∅ :=
            (wf_min_none_iff (hc _)).mp hcm
          have hnotin : vhigh k e1 ∉ elemsOf k s := by
            intro hcon
            obtain ⟨h', hne⟩ := (hsum _).mp hcon
            have hfin : (⟨vhigh k e1, h'⟩ : Fin (usize k)) = ⟨vhigh k e1, hh1⟩ :=
              Fin.ext rfl
            rw [hfin, hcemp] at hne
            exact absurd hne (by simp)
          obtain ⟨s1, hs1eq, hs1wf, hs1el⟩ :=
            ih s (vhigh k e1) hs hh1 (fun _ => hnotin)
          obtain ⟨hvwf, hvel⟩ :=
            wf_setMinMax (hc (⟨vhigh k e1, hh1⟩ : Fin (usize k))) hcemp (vlow_lt k e1)
          obtain ⟨hwf2, hel2⟩ := insert_assemble hwf he hem hM1 hbne hs1wf
            hs1el hvwf
            (by
              intro h1
              have hfin : (⟨vhigh k e1, h1⟩ : Fin (usize k)) = ⟨vhigh k e1, hh1⟩ :=
                Fin.ext rfl
              rw [hvel, hfin, hcemp]
              simp)
          refine ⟨_, ?_, hwf2, hel2⟩
          simp only [hcm, hs1eq]
        | some cm =>
          have hcne : (elemsOf k (c ⟨vhigh k e1, hh1⟩)).Nonempty := by
            have h1 := wf_min_eq (hc (⟨vhigh k e1, hh1⟩ : Fin (usize k)))
            rw [hcm] at h1
            exact ⟨cm, (oMin_eq_some_iff.mp h1.symm).1⟩
          have hnotin2 : b = true → vlow k e1 ∉ elemsOf k (c ⟨vhigh k e1, hh1⟩) := by
            intro hb hcon
            rcases hem with ⟨h1, h2, h3⟩ | ⟨h1, h2, h3⟩
            · have hb2 := (hbound ⟨vhigh k e1, hh1⟩ (vlow k e1) hcon).1 hb
              rw [vget_high_low] at hb2
              omega
            · refine hbne hb (mem_elemsOf_node.mpr (Or.inr (Or.inr
                ⟨⟨vhigh k e1, hh1⟩, vlow k e1, hcon, ?_⟩)))
              rw [vget_high_low]
              omega
          obtain ⟨ci1, hci1eq, hci1wf, hci1el⟩ :=
            ih (c ⟨vhigh k e1, hh1⟩) (vlow k e1) (hc _) (vlow_lt k e1) hnotin2
          have hmem : vhigh k e1 ∈ elemsOf k s := (hsum _).mpr ⟨hh1, hcne⟩
          obtain ⟨hwf2, hel2⟩ := insert_assemble hwf he hem hM1 hbne hs
            ((Finset.insert_eq_self.mpr hmem).symm) hci1wf
            (by
              intro h1
              have hfin : (⟨vhigh k e1, h1⟩ : Fin (usize k)) = ⟨vhigh k e1, hh1⟩ :=
                Fin.ext rfl
              rw [hci1el, hfin])
          refine ⟨_, ?_, hwf2, hel2⟩
          simp only [hcm, hci1eq]

/-- Assembling the updated node after vEB.delete removed the cached minimum
m, promoted x = index(fc, cfm) (the least key stored in the clusters), and
deleted low(x) from cluster fc: both delete branches (cluster emptied or
not) produce this shape, with s2 the possibly updated summary and cx1 the
updated cluster. -/
theorem delete_assemble {k : Nat} {m M : Nat} {s : vEB k}
    {c : Fin (usize k) → vEB k}
    (hwf : WF true (k + 1) (.node (some m) (some M) s c)) (hmM : m ≠ M)
    {fc : Nat} (hfcmem : fc ∈ elemsOf k s) (hfcmin : ∀ j ∈ elemsOf k s, fc ≤ j)
    (hfclt : fc < usize k)
    {cfm : Nat} (hcfm : (c ⟨fc, hfclt⟩).min = some cfm)
    {cx1 : vEB k} (hcx1wf : WF true k cx1)
    (hcx1el : elemsOf k cx1 = (elemsOf k (c ⟨fc, hfclt⟩)).erase cfm)
    {s2 : vEB k} (hs2wf : WF true k s2)
    (hs2el : ∀ j, j ∈ elemsOf k s2 ↔
      (j ≠ fc ∧ j ∈ elemsOf k s) ∨ (j = fc ∧ (elemsOf k cx1).Nonempty)) :
    WF true (k + 1) (.node (some (vget k fc cfm)) (some M) s2 (cset c fc cx1)) ∧
    elemsOf (k + 1) (.node (some (vget k fc cfm)) (some M) s2 (cset c fc cx1)) =
      (elemsOf (k + 1) (.node (some m) (some M) s c)).erase m := by
  obtain ⟨hs, hc, hsum, _⟩ := WF_node.mp hwf
  obtain ⟨M2, hM2eq, hle, hMlt, hbound, hatt⟩ := wf_node_full hwf rfl
  have hM2 : M2 = M := by injection hM2eq with h1; omega
  rw [hM2] at hle hMlt hbound hatt
  have hcfmspec := wf_min_eq (hc (⟨fc, hfclt⟩ : Fin (usize k)))
  rw [hcfm] at hcfmspec
  obtain ⟨hcfmmem, hcfmmin⟩ := oMin_eq_some_iff.mp hcfmspec.symm
  have hcfmlt : cfm < usize k := wf_elems_lt (hc _) hcfmmem
  have hmx : m < vget k fc cfm := (hbound _ cfm hcfmmem).1 rfl
  have hxM : vget k fc cfm ≤ M := (hbound _ cfm hcfmmem).2.2
  have hxmin : ∀ (i : Fin (usize k)) (y : Nat), y ∈ elemsOf k (c i) →
      vget k fc cfm ≤ vget k i.val y := by
    intro i y hy
    have hylt : y < usize k := wf_elems_lt (hc i) hy
    have himem : i.val ∈ elemsOf k s := by
      rw [hsum i.val]
      refine ⟨i.isLt, ⟨y, ?_⟩⟩
      have h3 : (⟨i.val, i.isLt⟩ : Fin (usize k)) = i := Fin.ext rfl
      rw [h3]
      exact hy
    have hfci : fc ≤ i.val := hfcmin i.val himem
    rcases Nat.eq_or_lt_of_le hfci with h3 | h3
    · have hieq : (⟨fc, hfclt⟩ : Fin (usize k)) = i := Fin.ext h3
      rw [← hieq] at hy
      have := hcfmmin y hy
      rw [← h3]
      exact vget_le_vget_left this
    · exact (vget_lt_of_high_lt y h3 hcfmlt).le
  constructor
  · rw [WF_node]
    refine ⟨hs2wf, ?_, ?_, Or.inr ⟨vget k fc cfm, M, rfl, rfl, hxM, hMlt, ?_, ?_⟩⟩
    · intro i
      by_cases hi : i.val = fc
      · rw [cset_same c fc cx1 i hi]
        exact hcx1wf
      · rw [cset_other c fc cx1 i hi]
        exact hc i
    · intro j
      rw [hs2el j]
      by_cases hj : j = fc
      · have hjlt : j < usize k := by omega
        constructor
        · rintro (⟨h1, _⟩ | ⟨_, hne⟩)
          · exact absurd hj h1
          · refine ⟨hjlt, ?_⟩
            rw [cset_same c fc cx1 ⟨j, hjlt⟩ hj]
            exact hne
        · rintro ⟨h1, hne⟩
          rw [cset_same c fc cx1 ⟨j, h1⟩ hj] at hne
          exact Or.inr ⟨hj, hne⟩
      · constructor
        · rintro (⟨_, hmem⟩ | ⟨h1, _⟩)
          · obtain ⟨h1, hne⟩ := (hsum j).mp hmem
            refine ⟨h1, ?_⟩
            rw [cset_other c fc cx1 ⟨j, h1⟩ hj]
            exact hne
          · exact absurd h1 hj
        · rintro ⟨h1, hne⟩
          rw [cset_other c fc cx1 ⟨j, h1⟩ hj] at hne
          exact Or.inl ⟨hj, (hsum j).mpr ⟨h1, hne⟩⟩
    · intro i y hy
      by_cases hi : i.val = fc
      · rw [cset_same c fc cx1 i hi, hcx1el] at hy
        obtain ⟨hycfm, hy'⟩ := Finset.mem_erase.mp hy
        have h4 : cfm ≤ y := hcfmmin y hy'
        have h5 : cfm < y := by omega
        have h6 : vget k fc cfm < vget k fc y := Nat.add_lt_add_left h5 _
        rw [hi]
        have h7 := (hbound ⟨fc, hfclt⟩ y hy').2.2
        exact ⟨fun _ => h6, h6.le, h7⟩
      · rw [cset_other c fc cx1 i hi] at hy
        have h4 := hxmin i y hy
        have h5 : vget k fc cfm ≠ vget k i.val y := by
          intro hcon
          have hylt : y < usize k := wf_elems_lt (hc i) hy
          exact hi ((vget_inj hcfmlt hylt).mp hcon).1.symm
        exact ⟨fun _ => by omega, h4, (hbound i y hy).2.2⟩
    · rcases hatt with hMm | ⟨i, y, hy, hvy⟩
      · exact absurd hMm.symm hmM
      · by_cases hi : i.val = fc
        · have hieq : (⟨fc, hfclt⟩ : Fin (usize k)) = i := Fin.ext hi.symm
          by_cases hycfm : y = cfm
          · subst hycfm
            left
            rw [← hvy, hi]
          · right
            refine ⟨i, y, ?_, hvy⟩
            rw [cset_same c fc cx1 i hi, hcx1el]
            rw [← hieq] at hy
            exact Finset.mem_erase.mpr ⟨hycfm, hy⟩
        · right
          refine ⟨i, y, ?_, hvy⟩
          rw [cset_other c fc cx1 i hi]
          exact hy
  · rw [Finset.ext_iff]
    intro z
    rw [Finset.mem_erase, mem_elemsOf_node, mem_elemsOf_node]
    simp only [Option.some.injEq]
    constructor
    · rintro (rfl | rfl | ⟨i, y, hy, rfl⟩)
      · refine ⟨by omega, Or.inr (Or.inr ⟨⟨fc, hfclt⟩, cfm, hcfmmem, rfl⟩)⟩
      · exact ⟨fun h1 => hmM h1.symm, Or.inr (Or.inl rfl)⟩
      · by_cases hi : i.val = fc
        · rw [cset_same c fc cx1 i hi, hcx1el] at hy
          obtain ⟨hycfm, hy'⟩ := Finset.mem_erase.mp hy
          refine ⟨?_, Or.inr (Or.inr ⟨⟨fc, hfclt⟩, y, hy', by rw [hi]⟩)⟩
          have h10 : m < vget k fc y := (hbound ⟨fc, hfclt⟩ y hy').1 rfl
          rw [hi]
          omega
        · rw [cset_other c fc cx1 i hi] at hy
          refine ⟨?_, Or.inr (Or.inr ⟨i, y, hy, rfl⟩)⟩
          have := (hbound i y hy).1 rfl
          omega
    · rintro ⟨hzm, rfl | rfl | ⟨i, y, hy, rfl⟩⟩
      · exact absurd rfl hzm
      · exact Or.inr (Or.inl rfl)
      · by_cases hi : i.val = fc
        · have hieq : (⟨fc, hfclt⟩ : Fin (usize k)) = i := Fin.ext hi.symm
          by_cases hycfm : y = cfm
          · subst hycfm
            left
            rw [hi]
          · right; right
            refine ⟨i, y, ?_, rfl⟩
            rw [cset_same c fc cx1 i hi, hcx1el]
            rw [← hieq] at hy
            exact Finset.mem_erase.mpr ⟨hycfm, hy⟩
        · right; right
          refine ⟨i, y, ?_, rfl⟩
          rw [cset_other c fc cx1 i hi]
          exact hy

/-- When vEB.delete returns normally on a stored key of a strictly well
formed tree, the result is strictly well formed and the key set loses
exactly that key.  (On keys other than the cached minimum of a tree with
two or more keys the source raises UnboundLocalError instead.) -/
theorem delete_ok : ∀ (k : Nat) (t : vEB k) (e : Nat) (t2 : vEB k),
    WF true k t → e ∈ elemsOf k t → vEB.delete k t e = some t2 →
    WF true k t2 ∧ elemsOf k t2 = (elemsOf k t).erase e := by
  intro k
  induction k with
  | zero =>
    intro t e t2 hwf hmem hdel
    cases t with
    | leaf mn mx =>
      rw [vEB.delete] at hdel
      rcases hwf with ⟨h1, h2⟩ | ⟨m, M, h1, h2, hle, hM⟩
      · subst h1; subst h2
        rw [elemsOf_leaf] at hmem
        simp at hmem
      · subst h1; subst h2
        rw [elemsOf_leaf] at hmem
        simp only [Finset.mem_union, Option.mem_toFinset, Option.mem_def,
          Option.some.injEq] at hmem
        by_cases hmm : (some m : Option Nat) = some M
        · rw [if_pos hmm] at hdel
          injection hdel with hdel
          subst hdel
          have hmM : m = M := by injection hmm
          have hem : e = m := by rcases hmem with h | h <;> omega
          refine ⟨Or.inl ⟨rfl, rfl⟩, ?_⟩
          rw [elemsOf_leaf, elemsOf_leaf, Finset.ext_iff]
          intro x
          simp only [Finset.mem_union, Option.mem_toFinset, Option.mem_def,
            Option.some.injEq, Option.toFinset_none, Finset.not_mem_empty,
            Finset.empty_union, Finset.mem_erase]
          constructor
          · intro h
            exact h.elim
          · rintro ⟨hxe, h | h⟩ <;> omega
        · rw [if_neg hmm] at hdel
          injection hdel with hdel
          subst hdel
          have hmM : m ≠ M := fun h => hmm (by rw [h])
          have hm0 : m = 0 := by omega
          have hM1 : M = 1 := by omega
          subst hm0
          subst hM1
          have he01 : e = 0 ∨ e = 1 := by rcases hmem with h | h <;> omega
          constructor
          · exact Or.inr ⟨_, _, rfl, rfl, le_refl _, by split_ifs <;> omega⟩
          · rw [elemsOf_leaf, elemsOf_leaf, Finset.ext_iff]
            intro x
            simp only [Finset.mem_union, Option.mem_toFinset, Option.mem_def,
              Option.some.injEq, Finset.mem_erase]
            rcases he01 with rfl | rfl
            · rw [if_pos rfl]
              constructor
              · rintro (rfl | rfl)
                · exact ⟨by omega, Or.inr rfl⟩
                · exact ⟨by omega, Or.inr rfl⟩
              · rintro ⟨h1, h2 | h2⟩
                · exact absurd h2.symm h1
                · exact Or.inl h2
            · rw [if_neg (by omega)]
              constructor
              · rintro (rfl | rfl)
                · exact ⟨by omega, Or.inl rfl⟩
                · exact ⟨by omega, Or.inl rfl⟩
              · rintro ⟨h1, h2 | h2⟩
                · exact Or.inl h2
                · exact absurd h2.symm h1
  | succ k ih =>
    intro t e t2 hwf hmem hdel
    cases t with
    | node mn mx s c =>
      obtain ⟨hs, hc, hsum, _⟩ := WF_node.mp hwf
      rw [vEB.delete] at hdel
      by_cases hmm : mn = mx
      · rw [if_pos hmm] at hdel
        injection hdel with hdel
        subst hdel
        cases hmn : mn with
        | none =>
          subst hmn
          have hS : elemsOf (k + 1) (vEB.node none mx s c) = ∅ := by
            rcases wf_minmax hwf with ⟨_, _, h3⟩ | ⟨m', M', h1, _⟩
            · exact h3
            · exact absurd h1 (by simp [vEB.min])
          rw [hS] at hmem
          simp at hmem
        | some m =>
          subst hmn
          obtain ⟨M, hmx, hle, hMlt, hbound, hatt⟩ := wf_node_full hwf rfl
          subst hmx
          have hmM : m = M := by injection hmm
          have hempc : ∀ i, elemsOf k (c i) = ∅ := by
            intro i
            rw [Finset.eq_empty_iff_forall_not_mem]
            intro y hy
            have h1 := (hbound i y hy).1 rfl
            have h2 := (hbound i y hy).2.2
            omega
          have hS : elemsOf (k + 1) (vEB.node (some m) (some M) s c) = {m} := by
            rw [Finset.ext_iff]
            intro x
            rw [mem_elemsOf_node]
            simp only [Option.some.injEq, Finset.mem_singleton]
            constructor
            · rintro (h1 | h1 | ⟨i, y, hy, _⟩)
              · omega
              · omega
              · rw [hempc i] at hy
                exact absurd hy (Finset.not_mem_empty y)
            · intro h1
              exact Or.inl h1.symm
          have hem : e = m := by
            rw [hS] at hmem
            simpa using hmem
          subst hem
          constructor
          · rw [WF_node]
            exact ⟨hs, hc, hsum, Or.inl ⟨rfl, rfl, hempc⟩⟩
          · rw [hS]
            rw [Finset.ext_iff]
            intro x
            rw [mem_elemsOf_node]
            simp [hempc]
      · rw [if_neg hmm] at hdel
        by_cases hemn : some e = mn
        · rw [if_pos hemn] at hdel
          cases hmn : mn with
          | none =>
            rw [hmn] at hemn
            exact absurd hemn (by simp)
          | some m =>
            subst hmn
            obtain ⟨M, hmx, hle, hMlt, hbound, hatt⟩ := wf_node_full hwf rfl
            subst hmx
            have hem : e = m := by injection hemn
            subst hem
            have hmM : e ≠ M := fun h => hmm (by rw [h])
            cases hsmin : s.min with
            | none =>
              rw [hsmin] at hdel
              simp at hdel
            | some fc =>
              have h1 := wf_min_eq hs
              rw [hsmin] at h1
              obtain ⟨hfcmem, hfcmin⟩ := oMin_eq_some_iff.mp h1.symm
              have hfclt : fc < usize k := wf_elems_lt hs hfcmem
              cases hcfm : (c ⟨fc, hfclt⟩).min with
              | none =>
                simp [hsmin, cidx_lt c hfclt, hcfm] at hdel
              | some cfm =>
                have h2 := wf_min_eq (hc (⟨fc, hfclt⟩ : Fin (usize k)))
                rw [hcfm] at h2
                obtain ⟨hcfmmem, hcfmmin⟩ := oMin_eq_some_iff.mp h2.symm
                have hcfmlt : cfm < usize k := wf_elems_lt (hc _) hcfmmem
                have hxh : vhigh k (vget k fc cfm) = fc := vget_high hcfmlt
                have hxl : vlow k (vget k fc cfm) = cfm := vget_low hcfmlt
                cases hdc : vEB.delete k (c ⟨fc, hfclt⟩) cfm with
                | none =>
                  simp [hsmin, cidx_lt c hfclt, hcfm, hxh, hxl, hdc] at hdel
                | some cx1 =>
                  obtain ⟨hcx1wf, hcx1el⟩ := ih _ _ _ (hc _) hcfmmem hdc
                  cases hc1m : cx1.min with
                  | none =>
                    have hcx1emp : elemsOf k cx1 = ∅ :=
                      (wf_min_none_iff hcx1wf).mp hc1m
                    cases hds : vEB.delete k s fc with
                    | none =>
                      simp [hsmin, cidx_lt c hfclt, hcfm, hxh, hxl, hdc, hc1m,
                        hds] at hdel
                    | some s1 =>
                      obtain ⟨hs1wf, hs1el⟩ := ih _ _ _ hs hfcmem hds
                      simp only [hsmin, cidx_lt c hfclt, hcfm, hxh, hxl, hdc,
                        hc1m, hds, hmM, Option.some.injEq, if_true, if_false,
                        eq_self_iff_true, if_neg, not_false_iff] at hdel
                      obtain ⟨hwf2, hel2⟩ := delete_assemble hwf hmM hfcmem
                        hfcmin hfclt hcfm hcx1wf hcx1el hs1wf (by
                          intro j
                          rw [hs1el, Finset.mem_erase, hcx1emp]
                          simp)
                      rw [← hdel]
                      exact ⟨hwf2, hel2⟩
                  | some cv =>
                    have hcx1ne : (elemsOf k cx1).Nonempty := by
                      have h3 := wf_min_eq hcx1wf
                      rw [hc1m] at h3
                      exact ⟨cv, (oMin_eq_some_iff.mp h3.symm).1⟩
                    simp only [hsmin, cidx_lt c hfclt, hcfm, hxh, hxl, hdc,
                      hc1m, hmM, Option.some.injEq, reduceCtorEq,
                      if_neg, not_false_iff] at hdel
                    obtain ⟨hwf2, hel2⟩ := delete_assemble hwf hmM hfcmem
                      hfcmin hfclt hcfm hcx1wf hcx1el hs (by
                        intro j
                        constructor
                        · intro hj
                          by_cases hjfc : j = fc
                          · exact Or.inr ⟨hjfc, hcx1ne⟩
                          · exact Or.inl ⟨hjfc, hj⟩
                        · rintro (⟨_, hj⟩ | ⟨hj, _⟩)
                          · exact hj
                          · rw [hj]
                            exact hfcmem)
                    rw [← hdel]
                    exact ⟨hwf2, hel2⟩
        · rw [if_neg hemn] at hdel
          simp at hdel

/-- Inserting a duplicate-free list of in-range keys, disjoint from the
current contents, succeeds and adds exactly those keys. -/
theorem insertSeq_ok {k : Nat} : ∀ (l : List Nat) (t : vEB k),
    WF true k t → (∀ e ∈ l, e < usize k) → l.Nodup →
    (∀ e ∈ l, e ∉ elemsOf k t) →
    ∃ t2, insertSeq k t l = some t2 ∧ WF true k t2 ∧
      elemsOf k t2 = elemsOf k t ∪ l.toFinset := by
  intro l
  induction l with
  | nil =>
    intro t hwf _ _ _
    exact ⟨t, rfl, hwf, by simp [insertSeq]⟩
  | cons a l ihl =>
    intro t hwf hin hnd hdisj
    obtain ⟨t1, h1, h1wf, h1el⟩ := insert_ok k t a hwf (hin a (by simp))
      (fun _ => hdisj a (by simp))
    obtain ⟨hal, hndl⟩ := List.nodup_cons.mp hnd
    obtain ⟨t2, h2, h2wf, h2el⟩ := ihl t1 h1wf
      (fun e he => hin e (by simp [he])) hndl
      (fun e he => by
        rw [h1el, Finset.mem_insert]
        push_neg
        refine ⟨fun hcon => hal (hcon ▸ he), hdisj e (by simp [he])⟩)
    refine ⟨t2, ?_, h2wf, ?_⟩
    · rw [insertSeq, List.foldlM_cons, h1]
      exact h2
    · rw [h2el, h1el, Finset.ext_iff]
      intro x
      simp only [Finset.mem_union, Finset.mem_insert, List.toFinset_cons]
      tauto

/-- States reachable from a fresh tree by inserting in-range keys that are
not currently members and deleting in-range keys that are members
(presence checked through vEB.isin). -/
inductive ReachD (k : Nat) : vEB k → Prop where
  | init : ReachD k (vEB.init k)
  | ins {t t2 : vEB k} {e : Nat} (he : e < usize k)
      (hnew : vEB.isin k t e = some false)
      (hstep : vEB.insert k t e = some t2) (hr : ReachD k t) : ReachD k t2
  | del {t t2 : vEB k} {e : Nat} (he : e < usize k)
      (hmem : vEB.isin k t e = some true)
      (hstep : vEB.delete k t e = some t2) (hr : ReachD k t) : ReachD k t2

/-- Every reachable state satisfies the strict representation invariant. -/
theorem reach_wf {k : Nat} {t : vEB k} (hr : ReachD k t) : WF true k t := by
  induction hr with
  | init => exact wf_init true k
  | ins he hnew hstep _ ihwf =>
    rename_i t t2 e _
    have h1 := isin_correct k t e ihwf he
    rw [hnew] at h1
    have h2 : e ∉ elemsOf k t := by
      intro hcon
      rw [eq_comm, Option.some.injEq] at h1
      simp [hcon] at h1
    obtain ⟨t3, heq, hwf3, _⟩ := insert_ok k t e ihwf he (fun _ => h2)
    rw [hstep] at heq
    injection heq with heq
    rw [heq]
    exact hwf3
  | del he hmem hstep _ ihwf =>
    rename_i t t2 e _
    have h1 := isin_correct k t e ihwf he
    rw [hmem] at h1
    have h2 : e ∈ elemsOf k t := by
      rw [eq_comm, Option.some.injEq] at h1
      simpa using h1
    exact (delete_ok k t e t2 ihwf h2 hstep).1

/-- The summary of a non base tree. -/
def summaryOf {k : Nat} : vEB (k + 1) → vEB k
  | .node _ _ s _ => s

/-- The cluster function of a non base tree. -/
def clusterOf {k : Nat} : vEB (k + 1) → Nat → Option (vEB k)
  | .node _ _ _ c, i => cidx c i

/-- The keys a tree observably holds: the in-range keys vEB.isin accepts. -/
def treeSetB (k : Nat) (t : vEB k) : Finset Nat :=
  (Finset.range (usize k)).filter (fun e => vEB.isin k t e = some true)

theorem treeSetB_eq_elems {b : Bool} {k : Nat} {t : vEB k} (h : WF b k t) :
    treeSetB k t = elemsOf k t := by
  rw [Finset.ext_iff]
  intro e
  rw [treeSetB, Finset.mem_filter, Finset.mem_range]
  constructor
  · rintro ⟨hlt, hin⟩
    rw [isin_correct k t e h hlt] at hin
    injection hin with hin
    simpa using hin
  · intro hmem
    have hlt := wf_elems_lt h hmem
    refine ⟨hlt, ?_⟩
    rw [isin_correct k t e h hlt]
    simp [hmem]

/-- The invariant of claim C4 at one level: min and max are both absent
exactly when no key is held, a single held key is both min and max, and
min is at most max. -/
def Inv4 (k : Nat) (t : vEB k) : Prop :=
  ((t.min = none ∧ t.max = none) ↔ treeSetB k t = ∅) ∧
  (∀ a, treeSetB k t = {a} → t.min = some a ∧ t.max = some a) ∧
  (∀ m M, t.min = some m → t.max = some M → m ≤ M)

/-- A property holding at a tree and at every nested summary and cluster. -/
def AllLevels (P : (k : Nat) → vEB k → Prop) : (k : Nat) → vEB k → Prop
  | 0, t => P 0 t
  | k + 1, .node mn mx s c =>
    P (k + 1) (.node mn mx s c) ∧ AllLevels P k s ∧ ∀ i, AllLevels P k (c i)

theorem oMin_singleton (a : Nat) : oMin {a} = some a := by
  rw [oMin_eq_some_iff]
  simp

theorem oMax_singleton (a : Nat) : oMax {a} = some a := by
  rw [oMax_eq_some_iff]
  simp

theorem wf_inv4 {k : Nat} {t : vEB k} (h : WF true k t) : Inv4 k t := by
  rw [Inv4, treeSetB_eq_elems h]
  refine ⟨?_, ?_, ?_⟩
  · rw [wf_min_none_iff h, wf_max_none_iff h]
    tauto
  · intro a ha
    rw [wf_min_eq h, wf_max_eq h, ha, oMin_singleton, oMax_singleton]
    exact ⟨rfl, rfl⟩
  · intro m M hm hM
    rcases wf_minmax h with ⟨h1, _⟩ | ⟨m', M', h1, h2, hm'mem, _, _, hall⟩
    · rw [h1] at hm
      cases hm
    · rw [h1] at hm
      rw [h2] at hM
      injection hm with hm
      injection hM with hM
      subst hm; subst hM
      exact (hall m' hm'mem).2

theorem wf_allLevels {P : (k : Nat) → vEB k → Prop}
    (hP : ∀ k t, WF true k t → P k t) :
    ∀ (k : Nat) (t : vEB k), WF true k t → AllLevels P k t := by
  intro k
  induction k with
  | zero =>
    intro t h
    cases t with
    | leaf mn mx => exact hP 0 _ h
  | succ k ih =>
    intro t h
    cases t with
    | node mn mx s c =>
      obtain ⟨hs, hc, _, _⟩ := WF_node.mp h
      exact ⟨hP _ _ h, ih s hs, fun i => ih (c i) (hc i)⟩

theorem cidx_eq_some {k : Nat} {c : Fin (usize k) → vEB k} {i : Nat}
    {ci : vEB k} (h : cidx c i = some ci) :
    ∃ hlt : i < usize k, ci = c ⟨i, hlt⟩ := by
  by_cases hlt : i < usize k
  · rw [cidx_lt c hlt] at h
    injection h with h
    exact ⟨hlt, h.symm⟩
  · rw [cidx, dif_neg hlt] at h
    cases h

/-- The two facts of claim C5, as consequences of the strict invariant:
the summary holds exactly the indices of observably non empty clusters,
and the cached minimum is not stored inside its own cluster. -/
theorem wf_c5 {k : Nat} {t : vEB (k + 1)} (h : WF true (k + 1) t) :
    (∀ j, j ∈ treeSetB k (summaryOf t) ↔
      ∃ ci, clusterOf t j = some ci ∧ (treeSetB k ci).Nonempty) ∧
    (∀ m ci, t.min = some m → clusterOf t (vhigh k m) = some ci →
      vEB.isin k ci (vlow k m) = some false) := by
  cases t with
  | node mn mx s c =>
    obtain ⟨hs, hc, hsum, _⟩ := WF_node.mp h
    constructor
    · intro j
      rw [summaryOf, treeSetB_eq_elems hs, hsum j]
      constructor
      · rintro ⟨h1, hne⟩
        refine ⟨c ⟨j, h1⟩, ?_, ?_⟩
        · rw [clusterOf, cidx_lt c h1]
        · rw [treeSetB_eq_elems (hc _)]
          exact hne
      · rintro ⟨ci, hcidx, hne⟩
        rw [clusterOf] at hcidx
        obtain ⟨hlt, rfl⟩ := cidx_eq_some hcidx
        refine ⟨hlt, ?_⟩
        rw [treeSetB_eq_elems (hc _)] at hne
        exact hne
    · intro m ci hm hci
      obtain ⟨M, hmx, hle, hMlt, hbound, _⟩ := wf_node_full h hm
      have hmlt : m < usize (k + 1) := by omega
      rw [clusterOf] at hci
      obtain ⟨hlt, rfl⟩ := cidx_eq_some hci
      rw [isin_correct k _ _ (hc _) (vlow_lt k m)]
      have hnm : vlow k m ∉ elemsOf k (c ⟨vhigh k m, hlt⟩) := by
        intro hcon
        have h1 := (hbound ⟨vhigh k m, hlt⟩ (vlow k m) hcon).1 rfl
        rw [vget_high_low] at h1
        omega
      simp [hnm]

/-- Python cannot delete the element after the UnboundLocalError branch: a
helper that walks a delete sequence checking membership before and after
each step (the loop of the repository test). -/
def delChk : (k : Nat) → vEB k → List Nat → Bool
  | _, _, [] => true
  | k, t, i :: r =>
    (vEB.isin k t i == some true) &&
      (match vEB.delete k t i with
       | some t2 => (vEB.isin k t2 i == some false) && delChk k t2 r
       | none => false)

/-- The tree of the repository test: universe 16, keys 0..15 inserted in
increasing order. -/
def c3tree : Option (vEB 2) := insertSeq 2 (vEB.init 2) (List.range 16)

/-- Universe 4 after inserting 0 then 1. -/
def c2tree : Option (vEB 1) := insertSeq 1 (vEB.init 1) [0, 1]

/-- Universe 4 after inserting key 1 twice (a duplicate insert). -/
def dupTree : Option (vEB 1) :=
  (vEB.insert 1 (vEB.init 1) 1).bind (fun t => vEB.insert 1 t 1)

/-- dupTree after deleting the (present) key 1. -/
def dupTreeDel : Option (vEB 1) := dupTree.bind (fun t => vEB.delete 1 t 1)

/-- The first branch of vEB.delete: clear min and max, leaving summary and
clusters untouched. -/
def clearMM : {k : Nat} → vEB k → vEB k
  | _, .leaf _ _ => .leaf none none
  | _, .node _ _ s c => .node none none s c

/-- The object vEB.__init__ builds, size field included; summary and
cluster are None at the base case. -/
inductive PyVeb where
  | mk (size : Nat) (mn mx : Option Nat) (summary : Option PyVeb)
      (cluster : Option (List PyVeb))

/-- vEB.__init__ for an arbitrary size, with fuel bounding the recursion
depth: none means the construction never terminates (sizes whose iterated
integer square root chain misses 2 recurse forever); Nat.sqrt models
int(math.sqrt _). -/
def buildVeb : Nat → Nat → Option PyVeb
  | 0, _ => none
  | fuel + 1, size =>
    if size = 2 then some (.mk size none none none none)
    else
      match buildVeb fuel (Nat.sqrt size) with
      | none => none
      | some s =>
        match (List.range (Nat.sqrt size)).mapM
            (fun _ => buildVeb fuel (Nat.sqrt size)) with
        | none => none
        | some cs => some (.mk size none none (some s) (some cs))

theorem buildVeb_one : ∀ fuel, buildVeb fuel 1 = none := by
  intro fuel
  induction fuel with
  | zero => rfl
  | succ f ih =>
    have h1 : Nat.sqrt 1 = 1 := by decide
    rw [buildVeb, if_neg (by omega), h1, ih]

theorem sqrt_three : Nat.sqrt 3 = 1 := by
  have h1 : Nat.sqrt 3 < 2 := Nat.sqrt_lt.mpr (by decide)
  have h2 : 1 ≤ Nat.sqrt 3 := Nat.le_sqrt.mpr (by decide)
  omega

theorem sqrt_six : Nat.sqrt 6 = 2 := by
  have h1 : Nat.sqrt 6 < 3 := Nat.sqrt_lt.mpr (by decide)
  have h2 : 2 ≤ Nat.sqrt 6 := Nat.le_sqrt.mpr (by decide)
  omega

theorem buildVeb_six : (buildVeb 8 6).isSome = true := by
  show (buildVeb (7 + 1) 6).isSome = true
  rw [buildVeb, if_neg (by decide), sqrt_six]
  rfl

/-- Claim C1: for every valid universe size 2 ^ 2 ^ k and every
duplicate-free list of in-range keys inserted in any order into a fresh
tree, min and max return the least and greatest inserted keys, successor x
returns the least stored key strictly above x (absent when none), and
predecessor x the greatest stored key strictly below x, for every in-range
x. -/
theorem claim_C1 (k : Nat) (l : List Nat) (hnd : l.Nodup)
    (hin : ∀ e ∈ l, e < usize k) :
    ∃ t, insertSeq k (vEB.init k) l = some t ∧
      t.min = oMin l.toFinset ∧ t.max = oMax l.toFinset ∧
      ∀ x, x < usize k →
        vEB.successor k t x =
          some (oMin (l.toFinset.filter (fun y => x < y))) ∧
        vEB.predecessor k t x =
          some (oMax (l.toFinset.filter (fun y => y < x))) := by
  obtain ⟨t, heq, hwf, hel⟩ := insertSeq_ok l (vEB.init k) (wf_init true k) hin
    hnd (by intro e _; rw [elems_init]; exact Finset.not_mem_empty e)
  rw [elems_init, Finset.empty_union] at hel
  refine ⟨t, heq, ?_, ?_, ?_⟩
  · rw [wf_min_eq hwf, hel]
  · rw [wf_max_eq hwf, hel]
  · intro x hx
    constructor
    · rw [succ_correct k t x hwf hx, hel]
    · rw [pred_correct k t x hwf hx, hel]

/-- Witness for claim C1 at universe 4 with the keys [2, 0]. -/
theorem claim_C1_witness :
    (([2, 0] : List Nat).Nodup ∧ ∀ e ∈ ([2, 0] : List Nat), e < usize 1) ∧
    (∃ t, insertSeq 1 (vEB.init 1) [2, 0] = some t ∧
      t.min = oMin ([2, 0] : List Nat).toFinset ∧
      t.max = oMax ([2, 0] : List Nat).toFinset ∧
      ∀ x, x < usize 1 →
        vEB.successor 1 t x =
          some (oMin (([2, 0] : List Nat).toFinset.filter (fun y => x < y))) ∧
        vEB.predecessor 1 t x =
          some (oMax (([2, 0] : List Nat).toFinset.filter (fun y => y < x)))) :=
  ⟨⟨by decide, by decide⟩, claim_C1 1 [2, 0] (by decide) (by decide)⟩

/-- Claim C2 (code bug in vEB.delete): at universe 4, after inserting 0
and 1 both keys are members, but deleting the non minimum key 1 raises
UnboundLocalError (the local x of vEB.delete is assigned only in the
element == self.min branch yet is read unconditionally on line 121), so
the call never returns; deleting the minimum 0 returns normally. -/
theorem claim_C2 :
    (c2tree.map (fun t => (vEB.isin 1 t 0, vEB.isin 1 t 1)) =
      some (some true, some true)) ∧
    (c2tree.map (fun t => (vEB.delete 1 t 1).isNone) = some true) ∧
    (c2tree.map (fun t => (vEB.delete 1 t 0).isSome) = some true) := by
  decide

/-- Claim C3: the universe 16 scenario of the repository test: insert
0..15 in order; min is 0 and max is 15; successor i = i + 1 and
predecessor (i + 1) = i for i below 15; each key is a member right before
its deletion and a non member right after; at the end min and max are both
absent. -/
theorem claim_C3 :
    (c3tree.map (fun t => t.min) = some (some 0)) ∧
    (c3tree.map (fun t => t.max) = some (some 15)) ∧
    (((List.range 15).all (fun i =>
      c3tree.map (fun t => vEB.successor 2 t i) ==
        some (some (some (i + 1))))) = true) ∧
    (((List.range 15).all (fun i =>
      c3tree.map (fun t => vEB.predecessor 2 t (i + 1)) ==
        some (some (some i)))) = true) ∧
    (c3tree.map (fun t => delChk 2 t (List.range 16)) = some true) ∧
    ((c3tree.bind (fun t => deleteSeq 2 t (List.range 16))).map
      (fun t => (t.min, t.max)) = some (none, none)) := by
  decide

/-- Claim C4 as stated is false: at universe 4, insert the in-range key 1
twice, then delete the present key 1; the delete returns normally, min and
max become absent, yet 1 is still a member, so absence of min and max does
not coincide with emptiness on states reached by in-range inserts and
present-key deletes. -/
theorem claim_C4_cex :
    (dupTree.map (fun t => vEB.isin 1 t 1) = some (some true)) ∧
    (dupTreeDel.map (fun t => (t.min, t.max, vEB.isin 1 t 1)) =
      some (none, none, some true)) := by
  decide

/-- Claim C4 (amended): on every tree reachable from a fresh tree by
inserting in-range keys that are not currently members and deleting
in-range keys that are members, at every recursion level min and max are
both absent exactly when the level holds no keys, a level holding exactly
one key has min = max equal to it, and min is at most max whenever both
are present. -/
theorem claim_C4 {k : Nat} {t : vEB k} (hr : ReachD k t) :
    AllLevels Inv4 k t :=
  wf_allLevels (fun _ _ h => wf_inv4 h) k t (reach_wf hr)

/-- Witness for claim C4 at the fresh universe 4 tree. -/
theorem claim_C4_witness :
    ReachD 1 (vEB.init 1) ∧ AllLevels Inv4 1 (vEB.init 1) :=
  ⟨ReachD.init, claim_C4 ReachD.init⟩

/-- Claim C5 as stated is false: after inserting the in-range key 1 twice
into a fresh universe 4 tree, the cached minimum 1 is stored in cluster
high(1) as well as in the min field, not only in the min field. -/
theorem claim_C5_cex :
    dupTree.map (fun t =>
      (t.min, (clusterOf t (vhigh 0 1)).map
        (fun ci => vEB.isin 0 ci (vlow 0 1)))) =
      some (some 1, some (some true)) := by
  decide

/-- Claim C5 (amended): on every non base tree reachable from a fresh tree
by inserting in-range keys that are not currently members and deleting
in-range keys that are members, the summary holds exactly the cluster
indices whose cluster is non empty, and the cached minimum is not stored
inside its own cluster. -/
theorem claim_C5 {k : Nat} {t : vEB (k + 1)} (hr : ReachD (k + 1) t) :
    (∀ j, j ∈ treeSetB k (summaryOf t) ↔
      ∃ ci, clusterOf t j = some ci ∧ (treeSetB k ci).Nonempty) ∧
    (∀ m ci, t.min = some m → clusterOf t (vhigh k m) = some ci →
      vEB.isin k ci (vlow k m) = some false) :=
  wf_c5 (reach_wf hr)

/-- Witness for claim C5 at the fresh universe 4 tree. -/
theorem claim_C5_witness :
    ReachD 1 (vEB.init 1) ∧
    ((∀ j, j ∈ treeSetB 0 (summaryOf (vEB.init 1)) ↔
      ∃ ci, clusterOf (vEB.init 1) j = some ci ∧ (treeSetB 0 ci).Nonempty) ∧
    (∀ m ci, (vEB.init 1).min = some m →
      clusterOf (vEB.init 1) (vhigh 0 m) = some ci →
      vEB.isin 0 ci (vlow 0 m) = some false)) :=
  ⟨ReachD.init, claim_C5 ReachD.init⟩

/-- Claim C6 as stated is false: inserting the out of range key 7 into a
fresh universe 4 tree does not fail with KeyOutOfRange; it returns
normally and sets min = max = 7, a state change. -/
theorem claim_C6_cex :
    vEB.insert 1 (vEB.init 1) 7 = some (vEB.setMinMax (vEB.init 1) 7) ∧
    (vEB.setMinMax (vEB.init 1) 7).min = some 7 :=
  ⟨rfl, rfl⟩

/-- Claim C6 (amended): the code performs no range validation and has no
KeyOutOfRange condition; inserting any out of range key into a fresh tree
of any valid universe size completes normally and caches the key as min
and max. -/
theorem claim_C6 (k e : Nat) (hout : usize k ≤ e) :
    vEB.insert k (vEB.init k) e = some (vEB.setMinMax (vEB.init k) e) ∧
    (vEB.setMinMax (vEB.init k) e).min = some e := by
  cases k with
  | zero => exact ⟨rfl, rfl⟩
  | succ k => exact ⟨rfl, rfl⟩

/-- Witness for claim C6 at universe 4 with the out of range key 7. -/
theorem claim_C6_witness :
    usize 1 ≤ 7 ∧
    (vEB.insert 1 (vEB.init 1) 7 = some (vEB.setMinMax (vEB.init 1) 7) ∧
      (vEB.setMinMax (vEB.init 1) 7).min = some 7) :=
  ⟨by decide, claim_C6 1 7 (by decide)⟩

/-- Claim C7 as stated is false: size 6 is not of the form 2 ^ 2 ^ k, yet
construction does not fail with InvalidUniverseSize; it terminates and
builds a tree (its square root chain 6, 2 reaches the base case). -/
theorem claim_C7_cex : (buildVeb 8 6).isSome = true :=
  buildVeb_six

/-- Claim C7 (amended): __init__ validates nothing and no
InvalidUniverseSize error exists: for sizes whose iterated integer square
root chain never reaches 2 (such as 3, whose chain sticks at 1) the
construction recurses forever (none at every fuel), and for invalid sizes
whose chain does reach 2 (such as 6) it terminates and builds a tree
without any error. -/
theorem claim_C7 :
    (∀ fuel, buildVeb fuel 3 = none) ∧ (buildVeb 8 6).isSome = true := by
  constructor
  · intro fuel
    cases fuel with
    | zero => rfl
    | succ f =>
      rw [buildVeb, if_neg (by omega), sqrt_three, buildVeb_one f]
  · exact buildVeb_six

/-- Claim C8: inserting an already present key a second time leaves every
observable (membership, min, max, successor and predecessor at every
in-range point) identical. -/
theorem claim_C8 (k : Nat) (l : List Nat) (hnd : l.Nodup)
    (hin : ∀ e ∈ l, e < usize k) (e : Nat) (he : e ∈ l) :
    ∃ t t2, insertSeq k (vEB.init k) l = some t ∧
      vEB.insert k t e = some t2 ∧
      t2.min = t.min ∧ t2.max = t.max ∧
      ∀ x, x < usize k →
        vEB.isin k t2 x = vEB.isin k t x ∧
        vEB.successor k t2 x = vEB.successor k t x ∧
        vEB.predecessor k t2 x = vEB.predecessor k t x := by
  obtain ⟨t, heq, hwf, hel⟩ := insertSeq_ok l (vEB.init k) (wf_init true k) hin
    hnd (by intro e2 _; rw [elems_init]; exact Finset.not_mem_empty e2)
  rw [elems_init, Finset.empty_union] at hel
  have hwfF : WF false k t := wf_weaken hwf
  obtain ⟨t2, heq2, hwf2, hel2⟩ := insert_ok k t e hwfF (hin e he)
    (fun hb => Bool.noConfusion hb)
  have hmem : e ∈ elemsOf k t := by
    rw [hel]
    exact List.mem_toFinset.mpr he
  have helEq : elemsOf k t2 = elemsOf k t := by
    rw [hel2, Finset.insert_eq_self.mpr hmem]
  refine ⟨t, t2, heq, heq2, ?_, ?_, ?_⟩
  · rw [wf_min_eq hwf2, wf_min_eq hwfF, helEq]
  · rw [wf_max_eq hwf2, wf_max_eq hwfF, helEq]
  · intro x hx
    refine ⟨?_, ?_, ?_⟩
    · rw [isin_correct k t2 x hwf2 hx, isin_correct k t x hwfF hx, helEq]
    · rw [succ_correct k t2 x hwf2 hx, succ_correct k t x hwfF hx, helEq]
    · rw [pred_correct k t2 x hwf2 hx, pred_correct k t x hwfF hx, helEq]

/-- Witness for claim C8 at universe 4 with keys [2, 0], reinserting 2. -/
theorem claim_C8_witness :
    (([2, 0] : List Nat).Nodup ∧ (∀ e ∈ ([2, 0] : List Nat), e < usize 1) ∧
      2 ∈ ([2, 0] : List Nat)) ∧
    (∃ t t2, insertSeq 1 (vEB.init 1) [2, 0] = some t ∧
      vEB.insert 1 t 2 = some t2 ∧
      t2.min = t.min ∧ t2.max = t.max ∧
      ∀ x, x < usize 1 →
        vEB.isin 1 t2 x = vEB.isin 1 t x ∧
        vEB.successor 1 t2 x = vEB.successor 1 t x ∧
        vEB.predecessor 1 t2 x = vEB.predecessor 1 t x) :=
  ⟨⟨by decide, by decide, by decide⟩,
    claim_C8 1 [2, 0] (by decide) (by decide) 2 (by decide)⟩

/-- Claim C9: for a tree of valid universe size, the high/low
decomposition round-trips: get (high x) (low x) = x for every in-range x
(pure arithmetic over int(math.sqrt(size))). -/
theorem claim_C9 (k x : Nat) (hx : x < usize k) :
    vEB.getS (usize k) (vEB.highS (usize k) x) (vEB.lowS (usize k) x) = x := by
  rw [vEB.getS, vEB.highS, vEB.lowS]
  exact Nat.div_add_mod' x (Nat.sqrt (usize k))

/-- Witness for claim C9 at universe 16 with x = 9. -/
theorem claim_C9_witness :
    9 < usize 2 ∧
    vEB.getS (usize 2) (vEB.highS (usize 2) 9) (vEB.lowS (usize 2) 9) = 9 :=
  ⟨by decide, claim_C9 2 9 (by decide)⟩

/-- Claim C10: whenever min equals max (the empty tree included, where
both are None), delete of any key returns normally and just clears min and
max, leaving summary and clusters untouched. -/
theorem claim_C10 (k : Nat) (t : vEB k) (e : Nat) (h : t.min = t.max) :
    vEB.delete k t e = some (clearMM t) := by
  cases t with
  | leaf mn mx =>
    rw [vEB.delete, if_pos (show mn = mx from h)]
    rfl
  | node mn mx s c =>
    rw [vEB.delete, if_pos (show mn = mx from h)]
    rfl

/-- Witness for claim C10: deleting the absent key 3 from the fresh
universe 4 tree. -/
theorem claim_C10_witness :
    (vEB.init 1).min = (vEB.init 1).max ∧
    vEB.delete 1 (vEB.init 1) 3 = some (clearMM (vEB.init 1)) :=
  ⟨rfl, claim_C10 1 (vEB.init 1) 3 rfl⟩
